import Mathlib

/-!
Shallow embedding of the `Ring` io_uring engine from
`src/accounts-db/src/ring/ring.rs`, together with proofs about its
submission, completion-processing and drain logic.

Modelling choices, all driven by the source:

* The kernel is external nondeterminism. Every kernel interaction
  (`IoUring::submit`, `Submitter::submit_with_args`, `submit_and_wait`)
  consumes one event from an oracle list carried in the state: the event
  says which in-flight submissions the kernel completed just before
  answering, and whether the syscall returned `Ok(n)` or a raw OS error
  code. Raw OS error codes are `Int` (as produced by
  `io::Error::from_raw_os_error`).
* The `slab::Slab` in-flight table is an association list from integer
  keys to operations plus a free list, mirroring slot reuse:
  `insert` takes the head of the free list (else a fresh index), and
  `remove` returns the slot to the free list; `remove` of a vacant key is
  the slab crate's panic, modelled as the `panicked` outcome.
* An `squeue::Entry` is represented by its `user_data` correlation tag,
  the only part of the descriptor the engine logic inspects.
* The `RingOp` trait methods `result` and `complete` are parameters
  `rf`/`cf` of the run functions (trait dispatch). `complete` receives the
  translated result and the shared context `T` and returns an updated
  context or an error; each invocation is recorded in a ghost `trace`
  field together with the in-flight table as visible at that moment.
* The unbounded retry loops (`Ring::push`, `Ring::submit`, `Ring::drain`)
  take a fuel parameter; exhausting it yields the `outOfFuel` outcome,
  which no theorem counts as a normal return.
-/

set_option maxHeartbeats 1000000
set_option linter.unusedVariables false

deriving instance DecidableEq for Except

namespace RingModel

/-- Linux raw OS error code for "device or resource busy" (`libc::EBUSY`). -/
def EBUSY : Int := 16

/-- Linux raw OS error code for "interrupted system call" (`libc::EINTR`). -/
def EINTR : Int := 4

/-- Linux raw OS error code for "timer expired" (`libc::ETIME`). -/
def ETIME : Int := 62

/-- A completion queue entry: correlation tag (`user_data`) and raw kernel
result (`cqe.result()`). -/
structure Cqe where
  userData : Nat
  res : Int
deriving DecidableEq

/-- Result of one kernel syscall: success with a count, or a raw OS error. -/
inductive KResp where
  | ok (n : Nat)
  | err (code : Int)
deriving DecidableEq

/-- One kernel-oracle event, consumed per syscall: `dels` are completions
(key, raw result) the kernel delivers for in-flight submissions just before
responding, `resp` is the syscall's return value. -/
structure KEv where
  dels : List (Nat × Int)
  resp : KResp
deriving DecidableEq

/-- The `slab::Slab` in-flight table: occupied slots as an association
list, a free list of reusable keys, and the next never-used key. -/
structure Slab (E : Type) where
  entries : List (Nat × E)
  free : List Nat
  next : Nat
deriving DecidableEq

/-- Keys of the occupied slots. -/
def slabKeys {E : Type} (s : Slab E) : List Nat :=
  s.entries.map Prod.fst

/-- First value stored under key `k`, if any. -/
def assocFind {E : Type} : List (Nat × E) → Nat → Option E
  | [], _ => none
  | (k, e) :: rest, j => if k = j then some e else assocFind rest j

/-- Remove the first pair stored under key `k`. -/
def assocErase {E : Type} : List (Nat × E) → Nat → List (Nat × E)
  | [], _ => []
  | (k, e) :: rest, j => if k = j then rest else (k, e) :: assocErase rest j

/-- `Slab::insert`: occupy a slot (head of the free list, else a fresh
index) and return its key. -/
def slabInsert {E : Type} (s : Slab E) (e : E) : Nat × Slab E :=
  match s.free with
  | k :: ks => (k, ⟨s.entries ++ [(k, e)], ks, s.next⟩)
  | [] => (s.next, ⟨s.entries ++ [(s.next, e)], [], s.next + 1⟩)

/-- `Slab::remove`: vacate the slot under `k` and return its value; `none`
models the slab crate's panic on a vacant key. -/
def slabRemove {E : Type} (s : Slab E) (k : Nat) : Option (E × Slab E) :=
  match assocFind s.entries k with
  | none => none
  | some e => some (e, ⟨assocErase s.entries k, k :: s.free, s.next⟩)

/-- Well-formedness of the slab: occupied keys are distinct, the free list
is duplicate-free and disjoint from the occupied keys, and every known key
is below `next`. -/
def slabWF {E : Type} (s : Slab E) : Prop :=
  (slabKeys s).Nodup ∧ s.free.Nodup ∧ (∀ k ∈ slabKeys s, k ∉ s.free) ∧
    (∀ k ∈ slabKeys s, k < s.next) ∧ (∀ k ∈ s.free, k < s.next)

instance {E : Type} (s : Slab E) : Decidable (slabWF s) := by
  unfold slabWF; infer_instance

/-- Ghost record of one `RingOp::complete` invocation: the correlation key,
the operation, the translated result passed to `complete`, the in-flight
table as visible at the moment of the call (the operation already
removed), and `complete`'s return value. -/
structure CompEvent (E : Type) where
  key : Nat
  op : E
  res : Except Int Int
  entriesAtCall : Slab E
  cOut : Except Int Unit
deriving DecidableEq

/-- State of a `Ring<T, E>` together with its kernel environment:
local submission queue (tags pushed, not yet handed to the kernel) with
its ring capacity, submissions the kernel has accepted and not yet
completed, completions published by the kernel but not yet synced,
the synced local completion-queue view, the in-flight slab, the user
context, the kernel oracle, and the ghost invocation trace. -/
structure RingSt (E T : Type) where
  sqCap : Nat
  sq : List Nat
  submitted : List Nat
  cqKernel : List Cqe
  cqLocal : List Cqe
  entries : Slab E
  ctx : T
  oracle : List KEv
  trace : List (CompEvent E)
deriving DecidableEq

/-- Outcome of an engine call: normal return with a value, an `io::Error`
with the state at the failure point, a panic (slab invariant violation)
with the offending key, or fuel exhaustion. -/
inductive RunRes (σ : Type) (α : Type) where
  | ok (a : α) (st : σ)
  | fail (code : Int) (st : σ)
  | panicked (key : Nat) (st : σ)
  | outOfFuel
deriving DecidableEq

/-- The state carried by a `RunRes`, when there is one. -/
def resSt {σ α : Type} : RunRes σ α → Option σ
  | .ok _ st => some st
  | .fail _ st => some st
  | .panicked _ st => some st
  | .outOfFuel => none

/-- `Ring::new`: empty queues, empty table, the given context and kernel
oracle. -/
def initRing {E T : Type} (sqCap : Nat) (ctx : T) (oracle : List KEv) : RingSt E T :=
  ⟨sqCap, [], [], [], [], ⟨[], [], 0⟩, ctx, oracle, []⟩

/-- The kernel completes one in-flight submission: its tag moves from the
accepted set to the kernel-published completion queue. Tags the kernel
never accepted are not completed. -/
def deliver1 {E T : Type} (st : RingSt E T) (d : Nat × Int) : RingSt E T :=
  if d.1 ∈ st.submitted then
    { st with submitted := st.submitted.erase d.1, cqKernel := st.cqKernel ++ [⟨d.1, d.2⟩] }
  else st

/-- Apply a batch of kernel completion deliveries in order. -/
def applyDels {E T : Type} (ds : List (Nat × Int)) (st : RingSt E T) : RingSt E T :=
  ds.foldl deliver1 st

/-- One kernel syscall: consume the next oracle event, apply its
deliveries, and return the syscall's response. `none` when the oracle is
exhausted (treated as running out of fuel by the callers). -/
def kernelEnter {E T : Type} (st : RingSt E T) : Option (KResp × RingSt E T) :=
  match st.oracle with
  | [] => none
  | ev :: rest => some (ev.resp, applyDels ev.dels { st with oracle := rest })

/-- On a successful submit syscall the kernel consumes the whole local
submission queue (`submission().sync()` then shows it empty). -/
def flushSq {E T : Type} (st : RingSt E T) : RingSt E T :=
  { st with sq := [], submitted := st.submitted ++ st.sq }

/-- The default `RingOp::result` translation: a negative raw result becomes
`io::Error::from_raw_os_error(-res)`, a non-negative one is the success
payload. -/
def defaultResult (res : Int) : Except Int Int :=
  if res < 0 then .error (-res) else .ok res

/-- The completion loop shared by `Ring::process_completions` and
`RingCtx::process_completions`: pop each entry of the synced local
completion view, remove the operation under the entry's tag from the slab
(panicking if vacant), translate the raw result via the operation's
`result` mapping `rf`, record the invocation, and run `complete` (`cf`);
an error from `complete` aborts the pass. `cqes` is the remaining local
view, kept equal to the `cqLocal` field. -/
def pcLoop {E T : Type} (rf : E → Int → Except Int Int)
    (cf : E → Except Int Int → T → Except Int T) :
    List Cqe → RingSt E T → RunRes (RingSt E T) Unit
  | [], st => .ok () st
  | cqe :: rest, st =>
    let st1 := { st with cqLocal := rest }
    match slabRemove st1.entries cqe.userData with
    | none => .panicked cqe.userData st1
    | some (op, es) =>
      let r := rf op cqe.res
      let st2 := { st1 with entries := es }
      match cf op r st2.ctx with
      | .error e =>
          .fail e { st2 with trace := st2.trace ++ [⟨cqe.userData, op, r, es, .error e⟩] }
      | .ok c2 =>
          pcLoop rf cf rest
            { st2 with ctx := c2, trace := st2.trace ++ [⟨cqe.userData, op, r, es, .ok ()⟩] }

/-- `RingCtx::process_completions`: drain the current local completion
view without a fresh sync. -/
def ringCtxProcessCompletions {E T : Type} (rf : E → Int → Except Int Int)
    (cf : E → Except Int Int → T → Except Int T) (st : RingSt E T) :
    RunRes (RingSt E T) Unit :=
  pcLoop rf cf st.cqLocal st

/-- `Ring::process_completions`: sync the local completion view with the
kernel (`completion.sync()`), then drain it. -/
def ringProcessCompletions {E T : Type} (rf : E → Int → Except Int Int)
    (cf : E → Except Int Int → T → Except Int T) (st : RingSt E T) :
    RunRes (RingSt E T) Unit :=
  let st1 := { st with cqLocal := st.cqLocal ++ st.cqKernel, cqKernel := [] }
  pcLoop rf cf st1.cqLocal st1

/-- `Ring::submit`: loop on the submit syscall; `Ok` flushes the local
submission queue, `EBUSY` processes completions and retries, `EINTR`
retries immediately, any other error is returned. -/
def submitFuel {E T : Type} (rf : E → Int → Except Int Int)
    (cf : E → Except Int Int → T → Except Int T) :
    Nat → RingSt E T → RunRes (RingSt E T) Unit
  | 0, _ => .outOfFuel
  | fuel + 1, st =>
    match kernelEnter st with
    | none => .outOfFuel
    | some (.ok _, st1) => .ok () (flushSq st1)
    | some (.err c, st1) =>
      if c = EBUSY then
        match ringProcessCompletions rf cf st1 with
        | .ok _ st2 => submitFuel rf cf fuel st2
        | r => r
      else if c = EINTR then submitFuel rf cf fuel st1
      else .fail c st1

/-- The retry loop of `Ring::push`: try to push the tagged entry onto the
local submission queue; while the queue is full, call `Ring::submit` and
retry. -/
def pushLoop {E T : Type} (rf : E → Int → Except Int Int)
    (cf : E → Except Int Int → T → Except Int T) :
    Nat → Nat → RingSt E T → RunRes (RingSt E T) Unit
  | 0, _, _ => .outOfFuel
  | fuel + 1, key, st =>
    if st.sq.length < st.sqCap then .ok () { st with sq := st.sq ++ [key] }
    else
      match submitFuel rf cf fuel st with
      | .ok _ st1 => pushLoop rf cf fuel key st1
      | r => r

/-- `Ring::push`: insert the operation into the slab obtaining its
correlation key, tag the submission entry with the key, and run the
push-retry loop. -/
def ringPush {E T : Type} (rf : E → Int → Except Int Int)
    (cf : E → Except Int Int → T → Except Int T)
    (fuel : Nat) (op : E) (st : RingSt E T) : RunRes (RingSt E T) Unit :=
  let p := slabInsert st.entries op
  pushLoop rf cf fuel p.1 { st with entries := p.2 }

/-- `Ring::drain`: process completions; stop when the slab is empty, else
wait for at least one completion with a 10ms timeout
(`submit_with_args(1, ..)`), treating `ETIME` as a retry and any other
error as fatal. -/
def drainFuel {E T : Type} (rf : E → Int → Except Int Int)
    (cf : E → Except Int Int → T → Except Int T) :
    Nat → RingSt E T → RunRes (RingSt E T) Unit
  | 0, _ => .outOfFuel
  | fuel + 1, st =>
    match ringProcessCompletions rf cf st with
    | .ok _ st1 =>
      if st1.entries.entries.isEmpty then .ok () st1
      else
        match kernelEnter st1 with
        | none => .outOfFuel
        | some (.ok _, st2) => drainFuel rf cf fuel (flushSq st2)
        | some (.err c, st2) => if c = ETIME then drainFuel rf cf fuel st2 else .fail c st2
    | r => r

/-- `Ring::submit_and_wait(want, timeout)`: with a timeout, `ETIME` yields
`Ok(None)`, success yields `Ok(Some(n))`, anything else is an error;
without a timeout, success is mapped to `Some` and every error is
returned. The syscall also hands the pending local submission queue to
the kernel on success. -/
def submitAndWait {E T : Type} (want : Nat) (timeout : Option Nat) (st : RingSt E T) :
    RunRes (RingSt E T) (Option Nat) :=
  match timeout with
  | some _ =>
    match kernelEnter st with
    | none => .outOfFuel
    | some (.ok n, st1) => .ok (some n) (flushSq st1)
    | some (.err c, st1) => if c = ETIME then .ok none st1 else .fail c st1
  | none =>
    match kernelEnter st with
    | none => .outOfFuel
    | some (.ok n, st1) => .ok (some n) (flushSq st1)
    | some (.err c, st1) => .fail c st1

/-- A public engine operation, for stating the cross-operation table
invariant. -/
inductive Step (E : Type) where
  | push (op : E)
  | submit
  | processCompletions
  | drain
  | wait (want : Nat) (timeout : Option Nat)
deriving DecidableEq

/-- Run one public engine operation. -/
def runStep {E T : Type} (rf : E → Int → Except Int Int)
    (cf : E → Except Int Int → T → Except Int T) (fuel : Nat) :
    Step E → RingSt E T → RunRes (RingSt E T) Unit
  | .push op, st => ringPush rf cf fuel op st
  | .submit, st => submitFuel rf cf fuel st
  | .processCompletions, st => ringProcessCompletions rf cf st
  | .drain, st => drainFuel rf cf fuel st
  | .wait w t, st =>
    match submitAndWait w t st with
    | .ok _ st1 => .ok () st1
    | .fail c st1 => .fail c st1
    | .panicked k st1 => .panicked k st1
    | .outOfFuel => .outOfFuel

/-- Run a sequence of public engine operations, stopping at the first
abnormal outcome. -/
def runSteps {E T : Type} (rf : E → Int → Except Int Int)
    (cf : E → Except Int Int → T → Except Int T) (fuel : Nat) :
    List (Step E) → RingSt E T → RunRes (RingSt E T) Unit
  | [], st => .ok () st
  | s :: rest, st =>
    match runStep rf cf fuel s st with
    | .ok _ st1 => runSteps rf cf fuel rest st1
    | r => r

/-- Multiset of correlation tags of descriptors the engine has handed to
the kernel path and whose completions have not yet been processed: tags
in the local submission queue, accepted in the kernel, published by the
kernel but unsynced, or synced but unprocessed. -/
def pendingTags {E T : Type} (st : RingSt E T) : Multiset Nat :=
  (st.sq : Multiset Nat) + (st.submitted : Multiset Nat) +
    (st.cqKernel.map Cqe.userData : List Nat) + (st.cqLocal.map Cqe.userData : List Nat)

/-- The occupied slab keys, as a multiset. -/
def keysM {E T : Type} (st : RingSt E T) : Multiset Nat :=
  (slabKeys st.entries : List Nat)

/-- The in-flight table invariant: occupied keys are exactly (with
multiplicity, hence each exactly once) the pending correlation tags. -/
def tableInv {E T : Type} (st : RingSt E T) : Prop :=
  keysM st = pendingTags st

instance {E T : Type} (st : RingSt E T) : Decidable (tableInv st) := by
  unfold tableInv; infer_instance

/-! Concrete instantiations (operation type `Unit`, context type `Unit`)
used to evaluate the model at specific inputs. -/

/-- The default `RingOp::result` used as the `result` dispatch. -/
def rfD : Unit → Int → Except Int Int := fun _ r => defaultResult r

/-- A `complete` implementation that always succeeds. -/
def cfOk : Unit → Except Int Int → Unit → Except Int Unit := fun _ _ c => .ok c

/-- A `complete` implementation that always fails with raw error 99. -/
def cfErr99 : Unit → Except Int Int → Unit → Except Int Unit := fun _ _ _ => .error 99

/-- Ready ring with two in-flight operations whose completions are visible:
one synced (tag 0, raw result -2) and one kernel-published (tag 1, raw 7). -/
def stC1 : RingSt Unit Unit :=
  ⟨4, [], [], [⟨1, 7⟩], [⟨0, -2⟩], ⟨[(0, ()), (1, ())], [], 2⟩, (), [], []⟩

/-- The state after `Ring::process_completions` on `stC1`. -/
def stC1Post : RingSt Unit Unit :=
  ⟨4, [], [], [], [], ⟨[], [1, 0], 2⟩, (),  [],
    [⟨0, (), .error 2, ⟨[(1, ())], [0], 2⟩, .ok ()⟩,
     ⟨1, (), .ok 7, ⟨[], [1, 0], 2⟩, .ok ()⟩]⟩

/-- Fresh ring, submission-queue capacity 1, kernel handing back a fatal
error (ENOMEM = 12) at the first submit syscall. -/
def stC2Init : RingSt Unit Unit := initRing 1 () [⟨[], .err 12⟩]

/-- The state after `push (); push ()` fails on `stC2Init`: key 1 is in the
table but its descriptor was never accepted anywhere. -/
def stC2Bad : RingSt Unit Unit :=
  ⟨1, [0], [], [], [], ⟨[(0, ()), (1, ())], [], 2⟩, (), [], []⟩

/-- Fresh ring with capacity 2 and no kernel interaction needed. -/
def stC2W : RingSt Unit Unit := initRing 2 () []

/-- The state after one successful `push` on `stC2W`. -/
def stC2WPost : RingSt Unit Unit :=
  ⟨2, [0], [], [], [], ⟨[(0, ())], [], 1⟩, (), [], []⟩

/-- Full submission queue, one visible completion (tag 1), and a kernel
that reports only queue saturation (`EBUSY`). -/
def stC3 : RingSt Unit Unit :=
  ⟨1, [0], [], [], [⟨1, 0⟩], ⟨[(0, ()), (1, ())], [], 2⟩, (), [⟨[], .err EBUSY⟩], []⟩

/-- The state after `Ring::push` fails on `stC3` with the callback error 99
even though the kernel never reported a non-capacity error. -/
def stC3Bad : RingSt Unit Unit :=
  ⟨1, [0], [], [], [], ⟨[(0, ()), (2, ())], [1], 3⟩, (), [],
    [⟨1, (), .ok 0, ⟨[(0, ()), (2, ())], [1], 3⟩, .error 99⟩]⟩

/-- Full submission queue with a kernel that reports a fatal error (7). -/
def stC3F : RingSt Unit Unit :=
  ⟨1, [0], [], [], [], ⟨[(0, ())], [], 1⟩, (), [⟨[], .err 7⟩], []⟩

/-- The state after `Ring::push` fails on `stC3F`. -/
def stC3FBad : RingSt Unit Unit :=
  ⟨1, [0], [], [], [], ⟨[(0, ()), (1, ())], [], 2⟩, (), [], []⟩

/-- A ring whose next submit syscall is interrupted (`EINTR`). -/
def stC4I : RingSt Unit Unit :=
  ⟨2, [0], [], [], [], ⟨[(0, ())], [], 1⟩, (), [⟨[], .err EINTR⟩], []⟩

/-- A ring whose next submit syscall reports a fatal error (5). -/
def stC4F : RingSt Unit Unit :=
  ⟨2, [0], [], [], [], ⟨[(0, ())], [], 1⟩, (), [⟨[], .err 5⟩], []⟩

/-- `stC4F` after the failing syscall consumed the oracle event. -/
def stC4FBad : RingSt Unit Unit :=
  ⟨2, [0], [], [], [], ⟨[(0, ())], [], 1⟩, (), [], []⟩

/-- One accepted in-flight operation; the kernel completes it (raw 4) at
the first drain wait. -/
def stC5 : RingSt Unit Unit :=
  ⟨1, [], [0], [], [], ⟨[(0, ())], [], 1⟩, (), [⟨[(0, 4)], .ok 1⟩], []⟩

/-- The state after `Ring::drain` returns on `stC5`. -/
def stC5Post : RingSt Unit Unit :=
  ⟨1, [], [], [], [], ⟨[], [0], 1⟩, (), [], [⟨0, (), .ok 4, ⟨[], [0], 1⟩, .ok ()⟩]⟩

/-- One accepted in-flight operation; the drain wait times out (`ETIME`). -/
def stC5T : RingSt Unit Unit :=
  ⟨1, [], [0], [], [], ⟨[(0, ())], [], 1⟩, (), [⟨[], .err ETIME⟩], []⟩

/-- Two visible completions whose first `complete` fails with error 99. -/
def stC6 : RingSt Unit Unit :=
  ⟨1, [], [], [], [⟨0, 1⟩, ⟨1, 2⟩], ⟨[(0, ()), (1, ())], [], 2⟩, (), [], []⟩

/-- The state after the aborted completion-processing pass on `stC6`. -/
def stC6Bad : RingSt Unit Unit :=
  ⟨1, [], [], [], [⟨1, 2⟩], ⟨[(1, ())], [0], 2⟩, (), [],
    [⟨0, (), .ok 1, ⟨[(1, ())], [0], 2⟩, .error 99⟩]⟩

/-- One visible completion whose tag 0 is present in the table. -/
def stC9 : RingSt Unit Unit :=
  ⟨1, [], [], [], [⟨0, 5⟩], ⟨[(0, ())], [], 1⟩, (), [], []⟩

/-- One visible completion whose tag 3 is missing from the table. -/
def stC9Bad : RingSt Unit Unit :=
  ⟨1, [], [], [], [⟨3, 5⟩], ⟨[(0, ())], [], 1⟩, (), [], []⟩

/-- The state after `RingCtx::process_completions` on `stC1` (no sync, so
only the already-synced entry with tag 0 is processed). -/
def stC10Post : RingSt Unit Unit :=
  ⟨4, [], [], [⟨1, 7⟩], [], ⟨[(1, ())], [0], 2⟩, (), [],
    [⟨0, (), .error 2, ⟨[(1, ())], [0], 2⟩, .ok ()⟩]⟩

theorem assocFind_none_iff {E : Type} (l : List (Nat × E)) (k : Nat) :
    assocFind l k = none ↔ k ∉ l.map Prod.fst := by
  induction l with
  | nil => simp [assocFind]
  | cons p rest ih =>
    obtain ⟨a, b⟩ := p
    by_cases h : a = k
    · subst h; simp [assocFind]
    · have hstep : assocFind ((a, b) :: rest) k = assocFind rest k := by simp [assocFind, h]
      rw [hstep, ih, List.map_cons, List.mem_cons]
      have hka : ¬k = a := fun hk => h hk.symm
      constructor
      · rintro hx (hc | hc)
        · exact hka hc
        · exact hx hc
      · exact fun hx hc => hx (Or.inr hc)

theorem assocFind_some_mem {E : Type} {l : List (Nat × E)} {k : Nat} {e : E}
    (h : assocFind l k = some e) : k ∈ l.map Prod.fst := by
  by_contra hmem
  rw [← assocFind_none_iff] at hmem
  rw [hmem] at h
  exact Option.noConfusion h

theorem assocErase_map_fst {E : Type} (l : List (Nat × E)) (k : Nat) :
    (assocErase l k).map Prod.fst = (l.map Prod.fst).erase k := by
  induction l with
  | nil => simp [assocErase]
  | cons p rest ih =>
    obtain ⟨a, b⟩ := p
    by_cases h : a = k
    · subst h; simp [assocErase, List.erase_cons_head]
    · simp [assocErase, h, ih, List.erase_cons_tail (not_beq_of_ne h)]

theorem slabRemove_none_iff {E : Type} (s : Slab E) (k : Nat) :
    slabRemove s k = none ↔ k ∉ slabKeys s := by
  constructor
  · intro h
    unfold slabRemove at h
    cases hf : assocFind s.entries k with
    | none => exact (assocFind_none_iff _ _).mp hf
    | some e => rw [hf] at h; exact Option.noConfusion h
  · intro h
    unfold slabRemove
    rw [(assocFind_none_iff _ _).mpr h]

theorem slabRemove_some_fields {E : Type} {s : Slab E} {k : Nat} {op : E} {s2 : Slab E}
    (h : slabRemove s k = some (op, s2)) :
    k ∈ slabKeys s ∧ slabKeys s2 = (slabKeys s).erase k ∧
      s2.free = k :: s.free ∧ s2.next = s.next := by
  unfold slabRemove at h
  cases hf : assocFind s.entries k with
  | none => rw [hf] at h; exact Option.noConfusion h
  | some e =>
    rw [hf] at h
    obtain ⟨he, hs⟩ : e = op ∧ (⟨assocErase s.entries k, k :: s.free, s.next⟩ : Slab E) = s2 := by
      have := Option.some.inj h
      exact ⟨congrArg Prod.fst this, congrArg Prod.snd this⟩
    subst hs
    exact ⟨assocFind_some_mem hf, by simp [slabKeys, assocErase_map_fst], rfl, rfl⟩

theorem slabRemove_keysM {E : Type} {s : Slab E} {k : Nat} {op : E} {s2 : Slab E}
    (h : slabRemove s k = some (op, s2)) :
    (slabKeys s : Multiset Nat) = k ::ₘ (slabKeys s2 : Multiset Nat) := by
  obtain ⟨hmem, hkeys, -, -⟩ := slabRemove_some_fields h
  rw [hkeys, ← Multiset.coe_erase, Multiset.cons_erase]
  exact hmem

theorem slabWF_remove {E : Type} {s : Slab E} {k : Nat} {op : E} {s2 : Slab E}
    (hwf : slabWF s) (h : slabRemove s k = some (op, s2)) :
    slabWF s2 ∧ k ∉ slabKeys s2 := by
  obtain ⟨hnd, hfnd, hdisj, hbk, hbf⟩ := hwf
  obtain ⟨hmem, hkeys, hfree, hnext⟩ := slabRemove_some_fields h
  have hknotin : k ∉ slabKeys s2 := by
    rw [hkeys]; exact fun hc => ((List.Nodup.mem_erase_iff hnd).mp hc).1 rfl
  refine ⟨⟨?_, ?_, ?_, ?_, ?_⟩, hknotin⟩
  · rw [hkeys]; exact hnd.erase k
  · rw [hfree]; exact List.nodup_cons.mpr ⟨hdisj k hmem, hfnd⟩
  · intro j hj
    rw [hfree]
    have hj' := (List.Nodup.mem_erase_iff hnd).mp (hkeys ▸ hj)
    simp only [List.mem_cons]
    rintro (rfl | hc)
    · exact hj'.1 rfl
    · exact hdisj j hj'.2 hc
  · intro j hj
    rw [hnext]
    exact hbk j ((List.Nodup.mem_erase_iff hnd).mp (hkeys ▸ hj)).2
  · intro j hj
    rw [hfree] at hj
    rw [hnext]
    rcases List.mem_cons.mp hj with rfl | hc
    · exact hbk j hmem
    · exact hbf j hc

theorem slabInsert_spec {E : Type} (s : Slab E) (e : E) (hwf : slabWF s) :
    slabWF (slabInsert s e).2 ∧
      slabKeys (slabInsert s e).2 = slabKeys s ++ [(slabInsert s e).1] ∧
      (slabInsert s e).1 ∉ slabKeys s := by
  obtain ⟨hnd, hfnd, hdisj, hbk, hbf⟩ := hwf
  unfold slabInsert
  cases hf : s.free with
  | cons k ks =>
    have hkmem : k ∈ s.free := by rw [hf]; exact List.mem_cons_self k ks
    have hknot : k ∉ slabKeys s := fun hc => hdisj k hc hkmem
    have hkeys : slabKeys (⟨s.entries ++ [(k, e)], ks, s.next⟩ : Slab E) =
        slabKeys s ++ [k] := by simp [slabKeys]
    refine ⟨⟨?_, ?_, ?_, ?_, ?_⟩, hkeys, hknot⟩
    · rw [hkeys]
      refine List.Nodup.append hnd (List.nodup_singleton k) ?_
      intro a ha hb
      rw [List.mem_singleton] at hb
      exact hknot (hb ▸ ha)
    · exact (hf ▸ hfnd).of_cons
    · intro j hj hc
      rw [hkeys] at hj
      rcases List.mem_append.mp hj with hj | hj
      · exact hdisj j hj (hf ▸ List.mem_cons_of_mem k hc)
      · rw [List.mem_singleton] at hj
        subst hj
        exact (List.nodup_cons.mp (hf ▸ hfnd)).1 hc
    · intro j hj
      rw [hkeys] at hj
      rcases List.mem_append.mp hj with hj | hj
      · exact hbk j hj
      · rw [List.mem_singleton] at hj; subst hj; exact hbf _ hkmem
    · intro j hj
      exact hbf j (hf ▸ List.mem_cons_of_mem k hj)
  | nil =>
    have hknot : s.next ∉ slabKeys s := fun hc => lt_irrefl s.next (hbk s.next hc)
    have hkeys : slabKeys (⟨s.entries ++ [(s.next, e)], [], s.next + 1⟩ : Slab E) =
        slabKeys s ++ [s.next] := by simp [slabKeys]
    refine ⟨⟨?_, List.nodup_nil, by simp, ?_, by simp⟩, hkeys, hknot⟩
    · rw [hkeys]
      refine List.Nodup.append hnd (List.nodup_singleton _) ?_
      intro a ha hb
      rw [List.mem_singleton] at hb
      exact hknot (hb ▸ ha)
    · intro j hj
      rw [hkeys] at hj
      rcases List.mem_append.mp hj with hj | hj
      · exact Nat.lt_succ_of_lt (hbk j hj)
      · rw [List.mem_singleton] at hj; subst hj; exact Nat.lt_succ_self _

theorem multiset_cons_le_elim {a : Nat} {s t : Multiset Nat} (h : a ::ₘ s ≤ t) :
    a ∈ t ∧ s ≤ t.erase a := by
  constructor
  · have hc := Multiset.le_iff_count.mp h a
    rw [Multiset.count_cons_self] at hc
    exact Multiset.count_pos.mp (lt_of_lt_of_le (Nat.succ_pos _) hc)
  · rw [Multiset.le_iff_count]
    intro b
    have hb := Multiset.le_iff_count.mp h b
    rw [Multiset.count_cons] at hb
    by_cases hba : b = a
    · subst hba
      rw [Multiset.count_erase_self]
      simp only [if_pos rfl] at hb
      exact Nat.le_pred_of_lt (Nat.lt_of_add_one_le hb)
    · rw [Multiset.count_erase_of_ne hba]
      simpa [hba] using hb

theorem pcLoop_frame {E T : Type} (rf : E → Int → Except Int Int)
    (cf : E → Except Int Int → T → Except Int T) :
    ∀ (cqes : List Cqe) (st st1 : RingSt E T),
      resSt (pcLoop rf cf cqes st) = some st1 →
      st1.sqCap = st.sqCap ∧ st1.sq = st.sq ∧ st1.submitted = st.submitted ∧
        st1.cqKernel = st.cqKernel ∧ st1.oracle = st.oracle := by
  intro cqes
  induction cqes with
  | nil =>
    intro st st1 h
    simp only [pcLoop, resSt] at h
    obtain rfl := Option.some.inj h
    exact ⟨rfl, rfl, rfl, rfl, rfl⟩
  | cons cqe rest ih =>
    intro st st1 h
    simp only [pcLoop] at h
    cases hrem : slabRemove st.entries cqe.userData with
    | none =>
      simp only [hrem] at h
      simp only [resSt] at h
      obtain rfl := Option.some.inj h
      exact ⟨rfl, rfl, rfl, rfl, rfl⟩
    | some pr =>
      obtain ⟨op, es⟩ := pr
      simp only [hrem] at h
      cases hcf : cf op (rf op cqe.res) st.ctx with
      | error e =>
        simp only [hcf] at h
        simp only [resSt] at h
        obtain rfl := Option.some.inj h
        exact ⟨rfl, rfl, rfl, rfl, rfl⟩
      | ok c2 =>
        simp only [hcf] at h
        obtain ⟨h1, h2, h3, h4, h5⟩ := ih _ _ h
        exact ⟨h1, h2, h3, h4, h5⟩

theorem pcLoop_trace_ext {E T : Type} (rf : E → Int → Except Int Int)
    (cf : E → Except Int Int → T → Except Int T) :
    ∀ (cqes : List Cqe) (st st1 : RingSt E T),
      resSt (pcLoop rf cf cqes st) = some st1 →
      ∃ l, st1.trace = st.trace ++ l := by
  intro cqes
  induction cqes with
  | nil =>
    intro st st1 h
    simp only [pcLoop, resSt] at h
    obtain rfl := Option.some.inj h
    exact ⟨[], by simp⟩
  | cons cqe rest ih =>
    intro st st1 h
    simp only [pcLoop] at h
    cases hrem : slabRemove st.entries cqe.userData with
    | none =>
      simp only [hrem] at h
      simp only [resSt] at h
      obtain rfl := Option.some.inj h
      exact ⟨[], by simp⟩
    | some pr =>
      obtain ⟨op, es⟩ := pr
      simp only [hrem] at h
      cases hcf : cf op (rf op cqe.res) st.ctx with
      | error e =>
        simp only [hcf] at h
        simp only [resSt] at h
        obtain rfl := Option.some.inj h
        exact ⟨[⟨cqe.userData, op, rf op cqe.res, es, .error e⟩], by simp⟩
      | ok c2 =>
        simp only [hcf] at h
        obtain ⟨l, hl⟩ := ih _ st1 h
        refine ⟨⟨cqe.userData, op, rf op cqe.res, es, .ok ()⟩ :: l, ?_⟩
        rw [hl]
        simp

theorem multiset_add_add_cons (X S R : Multiset Nat) (k : Nat) :
    X + (S + (k ::ₘ R)) = k ::ₘ (X + (S + R)) := by
  rw [Multiset.add_cons, Multiset.add_cons]

theorem pcLoop_ok {E T : Type} (rf : E → Int → Except Int Int)
    (cf : E → Except Int Int → T → Except Int T) :
    ∀ (cqes : List Cqe) (st st1 : RingSt E T), st.cqLocal = cqes →
      pcLoop rf cf cqes st = .ok () st1 →
      st1.cqLocal = [] ∧ ∃ l, st1.trace = st.trace ++ l ∧
        List.Forall₂ (fun (ev : CompEvent E) (cqe : Cqe) =>
          ev.key = cqe.userData ∧ ev.res = rf ev.op cqe.res ∧ ev.cOut = .ok ()) l cqes := by
  intro cqes
  induction cqes with
  | nil =>
    intro st st1 hcq h
    simp only [pcLoop] at h
    obtain ⟨-, rfl⟩ := RunRes.ok.inj h
    exact ⟨hcq, [], by simp, List.Forall₂.nil⟩
  | cons cqe rest ih =>
    intro st st1 hcq h
    simp only [pcLoop] at h
    cases hrem : slabRemove st.entries cqe.userData with
    | none =>
      simp only [hrem] at h
      exact RunRes.noConfusion h
    | some pr =>
      obtain ⟨op, es⟩ := pr
      simp only [hrem] at h
      cases hcf : cf op (rf op cqe.res) st.ctx with
      | error e =>
        simp only [hcf] at h
        exact RunRes.noConfusion h
      | ok c2 =>
        simp only [hcf] at h
        obtain ⟨hcq1, l, hl, hrel⟩ := ih _ _ rfl h
        refine ⟨hcq1, ⟨cqe.userData, op, rf op cqe.res, es, .ok ()⟩ :: l, ?_, ?_⟩
        · rw [hl]; simp
        · exact List.Forall₂.cons ⟨rfl, rfl, rfl⟩ hrel

theorem pcLoop_fail {E T : Type} (rf : E → Int → Except Int Int)
    (cf : E → Except Int Int → T → Except Int T) :
    ∀ (cqes : List Cqe) (st : RingSt E T) (e : Int) (st1 : RingSt E T), st.cqLocal = cqes →
      pcLoop rf cf cqes st = .fail e st1 →
      ∃ pre cqe post l ev,
        cqes = pre ++ cqe :: post ∧ st1.cqLocal = post ∧
        st1.trace = st.trace ++ l ++ [ev] ∧ l.length = pre.length ∧
        (∀ x ∈ l, x.cOut = .ok ()) ∧ ev.key = cqe.userData ∧ ev.cOut = .error e := by
  intro cqes
  induction cqes with
  | nil =>
    intro st e st1 hcq h
    simp only [pcLoop] at h
    exact RunRes.noConfusion h
  | cons cqe rest ih =>
    intro st e st1 hcq h
    simp only [pcLoop] at h
    cases hrem : slabRemove st.entries cqe.userData with
    | none =>
      simp only [hrem] at h
      exact RunRes.noConfusion h
    | some pr =>
      obtain ⟨op, es⟩ := pr
      simp only [hrem] at h
      cases hcf : cf op (rf op cqe.res) st.ctx with
      | error e2 =>
        simp only [hcf] at h
        obtain ⟨he, rfl⟩ := RunRes.fail.inj h
        subst he
        exact ⟨[], cqe, rest, [], ⟨cqe.userData, op, rf op cqe.res, es, .error e2⟩,
          by simp, rfl, by simp, rfl, by simp, rfl, rfl⟩
      | ok c2 =>
        simp only [hcf] at h
        obtain ⟨pre, cqe2, post, l, ev, hsplit, hcq1, htr, hlen, hok, hkey, hout⟩ :=
          ih _ _ _ rfl h
        refine ⟨cqe :: pre, cqe2, post,
          ⟨cqe.userData, op, rf op cqe.res, es, .ok ()⟩ :: l, ev, ?_, hcq1, ?_, ?_, ?_, hkey, hout⟩
        · rw [hsplit]; simp
        · rw [htr]; simp
        · simp [hlen]
        · intro x hx
          rcases List.mem_cons.mp hx with rfl | hx
          · rfl
          · exact hok x hx

theorem pcLoop_no_panic {E T : Type} (rf : E → Int → Except Int Int)
    (cf : E → Except Int Int → T → Except Int T) :
    ∀ (cqes : List Cqe) (st : RingSt E T),
      ((cqes.map Cqe.userData : List Nat) : Multiset Nat) ≤ (slabKeys st.entries : Multiset Nat) →
      ∀ (k : Nat) (st1 : RingSt E T), pcLoop rf cf cqes st ≠ .panicked k st1 := by
  intro cqes
  induction cqes with
  | nil =>
    intro st hle k st1 h
    simp only [pcLoop] at h
    exact RunRes.noConfusion h
  | cons cqe rest ih =>
    intro st hle k st1 h
    have hle' : cqe.userData ::ₘ ((rest.map Cqe.userData : List Nat) : Multiset Nat) ≤
        (slabKeys st.entries : Multiset Nat) := by
      simpa [Multiset.cons_coe] using hle
    obtain ⟨hmem, hrest⟩ := multiset_cons_le_elim hle'
    rw [Multiset.mem_coe] at hmem
    simp only [pcLoop] at h
    cases hrem : slabRemove st.entries cqe.userData with
    | none => exact (slabRemove_none_iff _ _).mp hrem hmem
    | some pr =>
      obtain ⟨op, es⟩ := pr
      simp only [hrem] at h
      cases hcf : cf op (rf op cqe.res) st.ctx with
      | error e =>
        simp only [hcf] at h
        exact RunRes.noConfusion h
      | ok c2 =>
        simp only [hcf] at h
        refine ih _ ?_ k st1 h
        obtain ⟨-, hkeys, -, -⟩ := slabRemove_some_fields hrem
        calc ((rest.map Cqe.userData : List Nat) : Multiset Nat)
            ≤ (slabKeys st.entries : Multiset Nat).erase cqe.userData := hrest
          _ = ((slabKeys es : List Nat) : Multiset Nat) := by
              rw [hkeys, Multiset.coe_erase]

theorem pcLoop_panic_head {E T : Type} (rf : E → Int → Except Int Int)
    (cf : E → Except Int Int → T → Except Int T) (cqe : Cqe) (rest : List Cqe)
    (st : RingSt E T) (h : cqe.userData ∉ slabKeys st.entries) :
    pcLoop rf cf (cqe :: rest) st = .panicked cqe.userData { st with cqLocal := rest } := by
  simp only [pcLoop, (slabRemove_none_iff _ _).mpr h]

theorem pcLoop_keys {E T : Type} (rf : E → Int → Except Int Int)
    (cf : E → Except Int Int → T → Except Int T) :
    ∀ (cqes : List Cqe) (st st1 : RingSt E T), slabWF st.entries →
      resSt (pcLoop rf cf cqes st) = some st1 →
      slabWF st1.entries ∧ ∃ l, st1.trace = st.trace ++ l ∧
        (∀ ev ∈ l, ev.key ∉ slabKeys ev.entriesAtCall ∧ ev.key ∈ slabKeys st.entries) ∧
        (l.map CompEvent.key).Nodup := by
  intro cqes
  induction cqes with
  | nil =>
    intro st st1 hwf h
    simp only [pcLoop, resSt] at h
    obtain rfl := Option.some.inj h
    exact ⟨hwf, [], by simp, by simp, List.nodup_nil⟩
  | cons cqe rest ih =>
    intro st st1 hwf h
    simp only [pcLoop] at h
    cases hrem : slabRemove st.entries cqe.userData with
    | none =>
      simp only [hrem, resSt] at h
      obtain rfl := Option.some.inj h
      exact ⟨hwf, [], by simp, by simp, List.nodup_nil⟩
    | some pr =>
      obtain ⟨op, es⟩ := pr
      simp only [hrem] at h
      obtain ⟨hwf2, hknot⟩ := slabWF_remove hwf hrem
      obtain ⟨hmem, hkeys, -, -⟩ := slabRemove_some_fields hrem
      cases hcf : cf op (rf op cqe.res) st.ctx with
      | error e =>
        simp only [hcf, resSt] at h
        obtain rfl := Option.some.inj h
        refine ⟨hwf2, [⟨cqe.userData, op, rf op cqe.res, es, .error e⟩], by simp, ?_, by simp⟩
        intro ev hev
        rw [List.mem_singleton] at hev
        subst hev
        exact ⟨hknot, hmem⟩
      | ok c2 =>
        simp only [hcf] at h
        obtain ⟨hwf1, l, hl, hprop, hnd⟩ := ih _ _ hwf2 h
        refine ⟨hwf1, ⟨cqe.userData, op, rf op cqe.res, es, .ok ()⟩ :: l, ?_, ?_, ?_⟩
        · rw [hl]; simp
        · intro ev hev
          rcases List.mem_cons.mp hev with rfl | hev
          · exact ⟨hknot, hmem⟩
          · obtain ⟨h1, h2⟩ := hprop ev hev
            refine ⟨h1, ?_⟩
            rw [hkeys] at h2
            exact (List.Nodup.mem_erase_iff hwf.1).mp h2 |>.2
        · rw [List.map_cons]
          refine List.nodup_cons.mpr ⟨?_, hnd⟩
          intro hc
          rw [List.mem_map] at hc
          obtain ⟨ev, hev, hkeq⟩ := hc
          have h2 := (hprop ev hev).2
          rw [hkeys] at h2
          exact ((List.Nodup.mem_erase_iff hwf.1).mp h2).1 hkeq

theorem pcLoop_inv {E T : Type} (rf : E → Int → Except Int Int)
    (cf : E → Except Int Int → T → Except Int T) (X : Multiset Nat) :
    ∀ (cqes : List Cqe) (st st1 : RingSt E T), st.cqLocal = cqes →
      keysM st = X + pendingTags st →
      resSt (pcLoop rf cf cqes st) = some st1 →
      keysM st1 = X + pendingTags st1 := by
  intro cqes
  induction cqes with
  | nil =>
    intro st st1 hcq hinv h
    simp only [pcLoop, resSt] at h
    obtain rfl := Option.some.inj h
    exact hinv
  | cons cqe rest ih =>
    intro st st1 hcq hinv h
    have hdecomp : pendingTags st =
        ((st.sq : Multiset Nat) + (st.submitted : Multiset Nat) +
          (st.cqKernel.map Cqe.userData : List Nat)) +
          (cqe.userData ::ₘ ((rest.map Cqe.userData : List Nat) : Multiset Nat)) := by
      unfold pendingTags
      rw [hcq]
      simp [Multiset.cons_coe, add_assoc]
    have hmem : cqe.userData ∈ slabKeys st.entries := by
      have : cqe.userData ∈ keysM st := by
        rw [hinv, hdecomp]
        refine Multiset.mem_add.mpr (Or.inr (Multiset.mem_add.mpr (Or.inr ?_)))
        exact Multiset.mem_cons_self _ _
      exact Multiset.mem_coe.mp this
    simp only [pcLoop] at h
    cases hrem : slabRemove st.entries cqe.userData with
    | none => exact absurd hrem ((not_iff_not.mpr (slabRemove_none_iff _ _)).mpr (not_not.mpr hmem))
    | some pr =>
      obtain ⟨op, es⟩ := pr
      simp only [hrem] at h
      have hstep : ((slabKeys es : List Nat) : Multiset Nat) =
          X + (((st.sq : Multiset Nat) + (st.submitted : Multiset Nat) +
            (st.cqKernel.map Cqe.userData : List Nat)) +
            ((rest.map Cqe.userData : List Nat) : Multiset Nat)) := by
        have hk := slabRemove_keysM hrem
        unfold keysM at hinv
        rw [hk, hdecomp] at hinv
        rw [multiset_add_add_cons] at hinv
        exact (Multiset.cons_inj_right _).mp hinv
      cases hcf : cf op (rf op cqe.res) st.ctx with
      | error e =>
        simp only [hcf, resSt] at h
        obtain rfl := Option.some.inj h
        unfold keysM pendingTags
        simpa [add_assoc] using hstep
      | ok c2 =>
        simp only [hcf] at h
        refine ih _ _ rfl ?_ h
        unfold keysM pendingTags
        simpa [add_assoc] using hstep

theorem deliver1_frame {E T : Type} (st : RingSt E T) (d : Nat × Int) :
    (deliver1 st d).sqCap = st.sqCap ∧ (deliver1 st d).sq = st.sq ∧
      (deliver1 st d).cqLocal = st.cqLocal ∧ (deliver1 st d).entries = st.entries ∧
      (deliver1 st d).oracle = st.oracle ∧ (deliver1 st d).trace = st.trace ∧
      (deliver1 st d).ctx = st.ctx := by
  unfold deliver1
  by_cases hmem : d.1 ∈ st.submitted <;> simp [hmem]

theorem applyDels_frame {E T : Type} (ds : List (Nat × Int)) :
    ∀ (st : RingSt E T),
      (applyDels ds st).sqCap = st.sqCap ∧ (applyDels ds st).sq = st.sq ∧
      (applyDels ds st).cqLocal = st.cqLocal ∧ (applyDels ds st).entries = st.entries ∧
      (applyDels ds st).oracle = st.oracle ∧ (applyDels ds st).trace = st.trace ∧
      (applyDels ds st).ctx = st.ctx := by
  induction ds with
  | nil => intro st; exact ⟨rfl, rfl, rfl, rfl, rfl, rfl, rfl⟩
  | cons d ds ih =>
    intro st
    have h1 := deliver1_frame st d
    have h2 := ih (deliver1 st d)
    simp only [applyDels, List.foldl_cons] at h2 ⊢
    exact ⟨h2.1.trans h1.1, h2.2.1.trans h1.2.1, h2.2.2.1.trans h1.2.2.1,
      h2.2.2.2.1.trans h1.2.2.2.1, h2.2.2.2.2.1.trans h1.2.2.2.2.1,
      h2.2.2.2.2.2.1.trans h1.2.2.2.2.2.1, h2.2.2.2.2.2.2.trans h1.2.2.2.2.2.2⟩

theorem deliver1_pending {E T : Type} (st : RingSt E T) (d : Nat × Int) :
    pendingTags (deliver1 st d) = pendingTags st := by
  unfold deliver1
  by_cases hmem : d.1 ∈ st.submitted
  · rw [if_pos hmem]
    unfold pendingTags
    have hsub : (st.submitted : Multiset Nat) =
        d.1 ::ₘ ((st.submitted.erase d.1 : List Nat) : Multiset Nat) := by
      rw [← Multiset.coe_erase, Multiset.cons_erase (Multiset.mem_coe.mpr hmem)]
    simp only [List.map_append, List.map_cons, List.map_nil]
    rw [← Multiset.coe_add]
    conv_rhs => rw [hsub]
    simp only [← Multiset.singleton_add, ← Multiset.coe_add, Multiset.coe_singleton]
    ext b
    simp only [Multiset.count_add]
    omega
  · rw [if_neg hmem]

theorem applyDels_pending {E T : Type} (ds : List (Nat × Int)) :
    ∀ (st : RingSt E T), pendingTags (applyDels ds st) = pendingTags st := by
  induction ds with
  | nil => intro st; rfl
  | cons d ds ih =>
    intro st
    simp only [applyDels, List.foldl_cons] at ih ⊢
    exact (ih (deliver1 st d)).trans (deliver1_pending st d)

theorem flushSq_frame {E T : Type} (st : RingSt E T) :
    (flushSq st).sqCap = st.sqCap ∧ (flushSq st).sq = [] ∧
      (flushSq st).cqKernel = st.cqKernel ∧ (flushSq st).cqLocal = st.cqLocal ∧
      (flushSq st).entries = st.entries ∧ (flushSq st).oracle = st.oracle ∧
      (flushSq st).trace = st.trace ∧ (flushSq st).ctx = st.ctx :=
  ⟨rfl, rfl, rfl, rfl, rfl, rfl, rfl, rfl⟩

theorem flushSq_pending {E T : Type} (st : RingSt E T) :
    pendingTags (flushSq st) = pendingTags st := by
  unfold pendingTags flushSq
  simp only [← Multiset.coe_add, Multiset.coe_nil]
  ext b
  simp only [Multiset.count_add, Multiset.count_zero]
  omega

theorem sync_pending {E T : Type} (st : RingSt E T) :
    pendingTags { st with cqLocal := st.cqLocal ++ st.cqKernel, cqKernel := [] } =
      pendingTags st := by
  unfold pendingTags
  simp only [List.map_append, List.map_nil, ← Multiset.coe_add, Multiset.coe_nil]
  ext b
  simp only [Multiset.count_add, Multiset.count_zero]
  omega

theorem ringPC_eq {E T : Type} (rf : E → Int → Except Int Int)
    (cf : E → Except Int Int → T → Except Int T) (st : RingSt E T) :
    ringProcessCompletions rf cf st =
      pcLoop rf cf (st.cqLocal ++ st.cqKernel)
        { st with cqLocal := st.cqLocal ++ st.cqKernel, cqKernel := [] } := rfl

theorem submitFuel_post {E T : Type} (rf : E → Int → Except Int Int)
    (cf : E → Except Int Int → T → Except Int T) :
    ∀ (fuel : Nat) (st st1 : RingSt E T),
      resSt (submitFuel rf cf fuel st) = some st1 →
      (∃ l, st1.trace = st.trace ++ l) ∧ (∀ ev ∈ st1.oracle, ev ∈ st.oracle) ∧
        st1.sqCap = st.sqCap := by
  intro fuel
  induction fuel with
  | zero =>
    intro st st1 h
    simp only [submitFuel, resSt] at h
    exact Option.noConfusion h
  | succ fuel ih =>
    intro st st1 h
    cases horacle : st.oracle with
    | nil =>
      simp only [submitFuel, kernelEnter, horacle, resSt] at h
      exact Option.noConfusion h
    | cons ev rest =>
      simp only [submitFuel, kernelEnter, horacle] at h
      have hD := applyDels_frame ev.dels { st with oracle := rest }
      cases hresp : ev.resp with
      | ok n =>
        simp only [hresp, resSt] at h
        obtain rfl := Option.some.inj h
        refine ⟨⟨[], by simp [flushSq, hD.2.2.2.2.2.1]⟩, ?_, hD.1⟩
        intro x hx
        simp only [flushSq] at hx
        rw [hD.2.2.2.2.1] at hx
        exact horacle ▸ List.mem_cons_of_mem ev hx
      | err c =>
        simp only [hresp] at h
        by_cases hc : c = EBUSY
        · rw [if_pos hc] at h
          cases hpc : ringProcessCompletions rf cf (applyDels ev.dels { st with oracle := rest }) with
          | ok u st2 =>
            rw [hpc] at h
            obtain ⟨⟨l1, hl1⟩, hor1, hcap1⟩ := ih st2 st1 h
            rw [ringPC_eq] at hpc
            obtain ⟨hcap2, -, -, -, hor2⟩ := pcLoop_frame rf cf _ _ _ (by rw [hpc]; rfl)
            obtain ⟨l2, hl2⟩ := pcLoop_trace_ext rf cf _ _ _ (by rw [hpc]; rfl)
            refine ⟨⟨l2 ++ l1, ?_⟩, ?_, ?_⟩
            · rw [hl1, hl2]
              simp [hD.2.2.2.2.2.1]
            · intro x hx
              have hx2 := hor1 x hx
              rw [hor2] at hx2
              simp only at hx2
              rw [hD.2.2.2.2.1] at hx2
              exact horacle ▸ List.mem_cons_of_mem ev hx2
            · rw [hcap1, hcap2]
              simp only
              exact hD.1
          | fail e2 st2 =>
            rw [hpc] at h
            simp only [resSt] at h
            obtain rfl := Option.some.inj h
            rw [ringPC_eq] at hpc
            obtain ⟨hcap2, -, -, -, hor2⟩ := pcLoop_frame rf cf _ _ _ (by rw [hpc]; rfl)
            obtain ⟨l2, hl2⟩ := pcLoop_trace_ext rf cf _ _ _ (by rw [hpc]; rfl)
            refine ⟨⟨l2, by rw [hl2]; simp [hD.2.2.2.2.2.1]⟩, ?_, ?_⟩
            · intro x hx
              rw [hor2] at hx
              simp only at hx
              rw [hD.2.2.2.2.1] at hx
              exact horacle ▸ List.mem_cons_of_mem ev hx
            · rw [hcap2]
              simp only
              exact hD.1
          | panicked k st2 =>
            rw [hpc] at h
            simp only [resSt] at h
            obtain rfl := Option.some.inj h
            rw [ringPC_eq] at hpc
            obtain ⟨hcap2, -, -, -, hor2⟩ := pcLoop_frame rf cf _ _ _ (by rw [hpc]; rfl)
            obtain ⟨l2, hl2⟩ := pcLoop_trace_ext rf cf _ _ _ (by rw [hpc]; rfl)
            refine ⟨⟨l2, by rw [hl2]; simp [hD.2.2.2.2.2.1]⟩, ?_, ?_⟩
            · intro x hx
              rw [hor2] at hx
              simp only at hx
              rw [hD.2.2.2.2.1] at hx
              exact horacle ▸ List.mem_cons_of_mem ev hx
            · rw [hcap2]
              simp only
              exact hD.1
          | outOfFuel =>
            rw [hpc] at h
            simp only [resSt] at h
            exact Option.noConfusion h
        · rw [if_neg hc] at h
          by_cases hc2 : c = EINTR
          · rw [if_pos hc2] at h
            obtain ⟨⟨l1, hl1⟩, hor1, hcap1⟩ := ih _ st1 h
            refine ⟨⟨l1, by rw [hl1, hD.2.2.2.2.2.1]⟩, ?_, by rw [hcap1]; exact hD.1⟩
            intro x hx
            have hx2 := hor1 x hx
            rw [hD.2.2.2.2.1] at hx2
            exact horacle ▸ List.mem_cons_of_mem ev hx2
          · rw [if_neg hc2] at h
            simp only [resSt] at h
            obtain rfl := Option.some.inj h
            refine ⟨⟨[], by simp [hD.2.2.2.2.2.1]⟩, ?_, hD.1⟩
            intro x hx
            rw [hD.2.2.2.2.1] at hx
            exact horacle ▸ List.mem_cons_of_mem ev hx

theorem keysM_congr {E T : Type} {st1 st2 : RingSt E T} (h : st1.entries = st2.entries) :
    keysM st1 = keysM st2 := by
  unfold keysM
  rw [h]

theorem submitFuel_ok_sq {E T : Type} (rf : E → Int → Except Int Int)
    (cf : E → Except Int Int → T → Except Int T) :
    ∀ (fuel : Nat) (st st1 : RingSt E T),
      submitFuel rf cf fuel st = .ok () st1 → st1.sq = [] := by
  intro fuel
  induction fuel with
  | zero => intro st st1 h; exact RunRes.noConfusion h
  | succ fuel ih =>
    intro st st1 h
    cases horacle : st.oracle with
    | nil =>
      simp only [submitFuel, kernelEnter, horacle] at h
      exact RunRes.noConfusion h
    | cons ev rest =>
      simp only [submitFuel, kernelEnter, horacle] at h
      cases hresp : ev.resp with
      | ok n =>
        simp only [hresp] at h
        obtain ⟨-, rfl⟩ := RunRes.ok.inj h
        rfl
      | err c =>
        simp only [hresp] at h
        by_cases hc : c = EBUSY
        · rw [if_pos hc] at h
          cases hpc : ringProcessCompletions rf cf (applyDels ev.dels { st with oracle := rest }) with
          | ok u st2 => rw [hpc] at h; exact ih st2 st1 h
          | fail e2 st2 => rw [hpc] at h; exact RunRes.noConfusion h
          | panicked k st2 => rw [hpc] at h; exact RunRes.noConfusion h
          | outOfFuel => rw [hpc] at h; exact RunRes.noConfusion h
        · rw [if_neg hc] at h
          by_cases hc2 : c = EINTR
          · rw [if_pos hc2] at h
            exact ih _ st1 h
          · rw [if_neg hc2] at h
            exact RunRes.noConfusion h

theorem submitFuel_fail {E T : Type} (rf : E → Int → Except Int Int)
    (cf : E → Except Int Int → T → Except Int T) :
    ∀ (fuel : Nat) (st st1 : RingSt E T) (e : Int),
      submitFuel rf cf fuel st = .fail e st1 →
      st1.sq = st.sq ∧
        ((∃ ds, (⟨ds, .err e⟩ : KEv) ∈ st.oracle ∧ e ≠ EBUSY ∧ e ≠ EINTR) ∨
          (∃ l ev, st1.trace = st.trace ++ l ++ [ev] ∧ (ev : CompEvent E).cOut = .error e)) := by
  intro fuel
  induction fuel with
  | zero => intro st st1 e h; exact RunRes.noConfusion h
  | succ fuel ih =>
    intro st st1 e h
    cases horacle : st.oracle with
    | nil =>
      simp only [submitFuel, kernelEnter, horacle] at h
      exact RunRes.noConfusion h
    | cons ev rest =>
      simp only [submitFuel, kernelEnter, horacle] at h
      have hD := applyDels_frame ev.dels { st with oracle := rest }
      cases hresp : ev.resp with
      | ok n =>
        simp only [hresp] at h
        exact RunRes.noConfusion h
      | err c =>
        simp only [hresp] at h
        by_cases hc : c = EBUSY
        · rw [if_pos hc] at h
          cases hpc : ringProcessCompletions rf cf (applyDels ev.dels { st with oracle := rest }) with
          | ok u st2 =>
            rw [hpc] at h
            obtain ⟨hsq1, hdisj⟩ := ih st2 st1 e h
            rw [ringPC_eq] at hpc
            obtain ⟨-, hsq2, -, -, hor2⟩ := pcLoop_frame rf cf _ _ _ (by rw [hpc]; rfl)
            obtain ⟨l2, hl2⟩ := pcLoop_trace_ext rf cf _ _ _ (by rw [hpc]; rfl)
            constructor
            · rw [hsq1, hsq2]
              simp only
              exact hD.2.1
            · rcases hdisj with ⟨ds, hmem, hne1, hne2⟩ | ⟨l, x, htr, hout⟩
              · refine Or.inl ⟨ds, ?_, hne1, hne2⟩
                rw [hor2] at hmem
                simp only at hmem
                rw [hD.2.2.2.2.1] at hmem
                exact horacle ▸ List.mem_cons_of_mem ev hmem
              · refine Or.inr ⟨l2 ++ l, x, ?_, hout⟩
                rw [htr, hl2]
                simp [hD.2.2.2.2.2.1, List.append_assoc]
          | fail e2 st2 =>
            rw [hpc] at h
            obtain ⟨he, rfl⟩ := RunRes.fail.inj h
            subst he
            rw [ringPC_eq] at hpc
            obtain ⟨-, hsq2, -, -, -⟩ := pcLoop_frame rf cf _ _ _ (by rw [hpc]; rfl)
            obtain ⟨pre, cqe2, post, l, x, -, -, htr, -, -, -, hout⟩ :=
              pcLoop_fail rf cf _ _ _ _ (by rfl) hpc
            constructor
            · rw [hsq2]
              simp only
              exact hD.2.1
            · refine Or.inr ⟨l, x, ?_, hout⟩
              rw [htr]
              simp [hD.2.2.2.2.2.1]
          | panicked k st2 =>
            rw [hpc] at h
            exact RunRes.noConfusion h
          | outOfFuel =>
            rw [hpc] at h
            exact RunRes.noConfusion h
        · rw [if_neg hc] at h
          by_cases hc2 : c = EINTR
          · rw [if_pos hc2] at h
            obtain ⟨hsq1, hdisj⟩ := ih _ st1 e h
            constructor
            · rw [hsq1]
              exact hD.2.1
            · rcases hdisj with ⟨ds, hmem, hne1, hne2⟩ | ⟨l, x, htr, hout⟩
              · refine Or.inl ⟨ds, ?_, hne1, hne2⟩
                rw [hD.2.2.2.2.1] at hmem
                exact horacle ▸ List.mem_cons_of_mem ev hmem
              · refine Or.inr ⟨l, x, ?_, hout⟩
                rw [htr, hD.2.2.2.2.2.1]
          · rw [if_neg hc2] at h
            obtain ⟨he, rfl⟩ := RunRes.fail.inj h
            subst he
            refine ⟨hD.2.1, Or.inl ⟨ev.dels, ?_, hc, hc2⟩⟩
            have hev : (⟨ev.dels, .err c⟩ : KEv) = ev := by
              cases ev
              simp only at hresp
              rw [hresp]
            rw [hev]
            exact List.mem_cons_self ev rest

theorem submitFuel_inv {E T : Type} (rf : E → Int → Except Int Int)
    (cf : E → Except Int Int → T → Except Int T) (X : Multiset Nat) :
    ∀ (fuel : Nat) (st st1 : RingSt E T), slabWF st.entries →
      keysM st = X + pendingTags st →
      resSt (submitFuel rf cf fuel st) = some st1 →
      slabWF st1.entries ∧ keysM st1 = X + pendingTags st1 := by
  intro fuel
  induction fuel with
  | zero =>
    intro st st1 hwf hinv h
    simp only [submitFuel, resSt] at h
    exact Option.noConfusion h
  | succ fuel ih =>
    intro st st1 hwf hinv h
    cases horacle : st.oracle with
    | nil =>
      simp only [submitFuel, kernelEnter, horacle, resSt] at h
      exact Option.noConfusion h
    | cons ev rest =>
      simp only [submitFuel, kernelEnter, horacle] at h
      have hD := applyDels_frame ev.dels { st with oracle := rest }
      have hwfD : slabWF (applyDels ev.dels { st with oracle := rest }).entries := by
        rw [hD.2.2.2.1]
        exact hwf
      have hpendD : pendingTags (applyDels ev.dels { st with oracle := rest }) =
          pendingTags st :=
        (applyDels_pending ev.dels { st with oracle := rest }).trans rfl
      have hinvD : keysM (applyDels ev.dels { st with oracle := rest }) =
          X + pendingTags (applyDels ev.dels { st with oracle := rest }) := by
        rw [keysM_congr (hD.2.2.2.1.trans rfl), hpendD]
        exact hinv
      cases hresp : ev.resp with
      | ok n =>
        simp only [hresp, resSt] at h
        obtain rfl := Option.some.inj h
        refine ⟨?_, ?_⟩
        · rw [(flushSq_frame _).2.2.2.2.1]
          exact hwfD
        · rw [keysM_congr (flushSq_frame _).2.2.2.2.1, flushSq_pending]
          exact hinvD
      | err c =>
        simp only [hresp] at h
        by_cases hc : c = EBUSY
        · rw [if_pos hc] at h
          have hwfS : slabWF ({ applyDels ev.dels { st with oracle := rest } with
              cqLocal := (applyDels ev.dels { st with oracle := rest }).cqLocal ++
                (applyDels ev.dels { st with oracle := rest }).cqKernel,
              cqKernel := [] } : RingSt E T).entries := hwfD
          have hinvS : keysM ({ applyDels ev.dels { st with oracle := rest } with
              cqLocal := (applyDels ev.dels { st with oracle := rest }).cqLocal ++
                (applyDels ev.dels { st with oracle := rest }).cqKernel,
              cqKernel := [] } : RingSt E T) =
              X + pendingTags ({ applyDels ev.dels { st with oracle := rest } with
                cqLocal := (applyDels ev.dels { st with oracle := rest }).cqLocal ++
                  (applyDels ev.dels { st with oracle := rest }).cqKernel,
                cqKernel := [] } : RingSt E T) := by
            rw [sync_pending]
            exact hinvD
          cases hpc : ringProcessCompletions rf cf (applyDels ev.dels { st with oracle := rest }) with
          | ok u st2 =>
            rw [hpc] at h
            rw [ringPC_eq] at hpc
            have hwf2 := (pcLoop_keys rf cf _ _ _ hwfS (by rw [hpc]; rfl)).1
            have hinv2 := pcLoop_inv rf cf X _ _ _ rfl hinvS (by rw [hpc]; rfl)
            exact ih st2 st1 hwf2 hinv2 h
          | fail e2 st2 =>
            rw [hpc] at h
            simp only [resSt] at h
            obtain rfl := Option.some.inj h
            rw [ringPC_eq] at hpc
            exact ⟨(pcLoop_keys rf cf _ _ _ hwfS (by rw [hpc]; rfl)).1,
              pcLoop_inv rf cf X _ _ _ rfl hinvS (by rw [hpc]; rfl)⟩
          | panicked k st2 =>
            rw [hpc] at h
            simp only [resSt] at h
            obtain rfl := Option.some.inj h
            rw [ringPC_eq] at hpc
            exact ⟨(pcLoop_keys rf cf _ _ _ hwfS (by rw [hpc]; rfl)).1,
              pcLoop_inv rf cf X _ _ _ rfl hinvS (by rw [hpc]; rfl)⟩
          | outOfFuel =>
            rw [hpc] at h
            simp only [resSt] at h
            exact Option.noConfusion h
        · rw [if_neg hc] at h
          by_cases hc2 : c = EINTR
          · rw [if_pos hc2] at h
            exact ih _ st1 hwfD hinvD h
          · rw [if_neg hc2] at h
            simp only [resSt] at h
            obtain rfl := Option.some.inj h
            exact ⟨hwfD, hinvD⟩

theorem pushLoop_ok_mem {E T : Type} (rf : E → Int → Except Int Int)
    (cf : E → Except Int Int → T → Except Int T) (key : Nat) :
    ∀ (fuel : Nat) (st st1 : RingSt E T),
      pushLoop rf cf fuel key st = .ok () st1 → key ∈ st1.sq := by
  intro fuel
  induction fuel with
  | zero => intro st st1 h; exact RunRes.noConfusion h
  | succ fuel ih =>
    intro st st1 h
    simp only [pushLoop] at h
    by_cases hroom : st.sq.length < st.sqCap
    · rw [if_pos hroom] at h
      obtain ⟨-, rfl⟩ := RunRes.ok.inj h
      simp
    · rw [if_neg hroom] at h
      cases hsub : submitFuel rf cf fuel st with
      | ok u st2 => rw [hsub] at h; exact ih st2 st1 h
      | fail e st2 => rw [hsub] at h; exact RunRes.noConfusion h
      | panicked k st2 => rw [hsub] at h; exact RunRes.noConfusion h
      | outOfFuel => rw [hsub] at h; exact RunRes.noConfusion h

theorem pushLoop_fail {E T : Type} (rf : E → Int → Except Int Int)
    (cf : E → Except Int Int → T → Except Int T) (key : Nat) :
    ∀ (fuel : Nat) (st st1 : RingSt E T) (e : Int),
      pushLoop rf cf fuel key st = .fail e st1 →
      (∃ ds, (⟨ds, .err e⟩ : KEv) ∈ st.oracle ∧ e ≠ EBUSY ∧ e ≠ EINTR) ∨
        (∃ l ev, st1.trace = st.trace ++ l ++ [ev] ∧ (ev : CompEvent E).cOut = .error e) := by
  intro fuel
  induction fuel with
  | zero => intro st st1 e h; exact RunRes.noConfusion h
  | succ fuel ih =>
    intro st st1 e h
    simp only [pushLoop] at h
    by_cases hroom : st.sq.length < st.sqCap
    · rw [if_pos hroom] at h
      exact RunRes.noConfusion h
    · rw [if_neg hroom] at h
      cases hsub : submitFuel rf cf fuel st with
      | ok u st2 =>
        rw [hsub] at h
        obtain ⟨⟨l2, hl2⟩, hor2, -⟩ := submitFuel_post rf cf fuel st st2 (by rw [hsub]; rfl)
        rcases ih st2 st1 e h with ⟨ds, hmem, hne1, hne2⟩ | ⟨l, x, htr, hout⟩
        · exact Or.inl ⟨ds, hor2 _ hmem, hne1, hne2⟩
        · refine Or.inr ⟨l2 ++ l, x, ?_, hout⟩
          rw [htr, hl2]
          simp [List.append_assoc]
      | fail e2 st2 =>
        rw [hsub] at h
        obtain ⟨he, rfl⟩ := RunRes.fail.inj h
        subst he
        exact (submitFuel_fail rf cf fuel st _ _ hsub).2
      | panicked k st2 => rw [hsub] at h; exact RunRes.noConfusion h
      | outOfFuel => rw [hsub] at h; exact RunRes.noConfusion h

theorem pushLoop_ok_inv {E T : Type} (rf : E → Int → Except Int Int)
    (cf : E → Except Int Int → T → Except Int T) (key : Nat) :
    ∀ (fuel : Nat) (st st1 : RingSt E T), slabWF st.entries →
      keysM st = {key} + pendingTags st →
      pushLoop rf cf fuel key st = .ok () st1 →
      slabWF st1.entries ∧ keysM st1 = pendingTags st1 := by
  intro fuel
  induction fuel with
  | zero => intro st st1 hwf hinv h; exact RunRes.noConfusion h
  | succ fuel ih =>
    intro st st1 hwf hinv h
    simp only [pushLoop] at h
    by_cases hroom : st.sq.length < st.sqCap
    · rw [if_pos hroom] at h
      obtain ⟨-, rfl⟩ := RunRes.ok.inj h
      refine ⟨hwf, ?_⟩
      have hpend : pendingTags ({ st with sq := st.sq ++ [key] } : RingSt E T) =
          {key} + pendingTags st := by
        unfold pendingTags
        simp only [← Multiset.coe_add, Multiset.coe_singleton]
        ext b
        simp only [Multiset.count_add]
        omega
      rw [hpend]
      have hkeys : keysM ({ st with sq := st.sq ++ [key] } : RingSt E T) = keysM st := rfl
      rw [hkeys, hinv]
    · rw [if_neg hroom] at h
      cases hsub : submitFuel rf cf fuel st with
      | ok u st2 =>
        rw [hsub] at h
        obtain ⟨hwf2, hinv2⟩ :=
          submitFuel_inv rf cf {key} fuel st st2 hwf hinv (by rw [hsub]; rfl)
        exact ih st2 st1 hwf2 hinv2 h
      | fail e st2 => rw [hsub] at h; exact RunRes.noConfusion h
      | panicked k st2 => rw [hsub] at h; exact RunRes.noConfusion h
      | outOfFuel => rw [hsub] at h; exact RunRes.noConfusion h

theorem ringPush_ok_inv {E T : Type} (rf : E → Int → Except Int Int)
    (cf : E → Except Int Int → T → Except Int T) (fuel : Nat) (op : E)
    (st st1 : RingSt E T) (hwf : slabWF st.entries) (hinv : keysM st = pendingTags st)
    (h : ringPush rf cf fuel op st = .ok () st1) :
    slabWF st1.entries ∧ keysM st1 = pendingTags st1 := by
  unfold ringPush at h
  obtain ⟨hwfI, hkeysI, hnewI⟩ := slabInsert_spec st.entries op hwf
  refine pushLoop_ok_inv rf cf _ fuel _ st1 hwfI ?_ h
  have hpend : pendingTags ({ st with entries := (slabInsert st.entries op).2 } : RingSt E T) =
      pendingTags st := rfl
  have hkeys : keysM ({ st with entries := (slabInsert st.entries op).2 } : RingSt E T) =
      ((slabKeys st.entries ++ [(slabInsert st.entries op).1] : List Nat) : Multiset Nat) := by
    unfold keysM
    simp only
    rw [hkeysI]
  rw [hpend, hkeys, ← Multiset.coe_add]
  rw [show ((slabKeys st.entries : List Nat) : Multiset Nat) +
      (([(slabInsert st.entries op).1] : List Nat) : Multiset Nat) =
      (([(slabInsert st.entries op).1] : List Nat) : Multiset Nat) +
      ((slabKeys st.entries : List Nat) : Multiset Nat) from add_comm _ _]
  rw [Multiset.coe_singleton]
  unfold keysM at hinv
  rw [hinv]

theorem drainFuel_ok_empty {E T : Type} (rf : E → Int → Except Int Int)
    (cf : E → Except Int Int → T → Except Int T) :
    ∀ (fuel : Nat) (st st1 : RingSt E T),
      drainFuel rf cf fuel st = .ok () st1 → st1.entries.entries = [] := by
  intro fuel
  induction fuel with
  | zero => intro st st1 h; exact RunRes.noConfusion h
  | succ fuel ih =>
    intro st st1 h
    simp only [drainFuel] at h
    cases hpc : ringProcessCompletions rf cf st with
    | ok u st2 =>
      rw [hpc] at h
      cases hemp : st2.entries.entries.isEmpty with
      | true =>
        simp only [hemp, if_true] at h
        obtain ⟨-, rfl⟩ := RunRes.ok.inj h
        exact List.isEmpty_iff.mp hemp
      | false =>
        simp only [hemp, Bool.false_eq_true, if_false] at h
        cases hor2 : st2.oracle with
        | nil => simp only [kernelEnter, hor2] at h; exact RunRes.noConfusion h
        | cons ev rest =>
          simp only [kernelEnter, hor2] at h
          cases hresp : ev.resp with
          | ok n =>
            simp only [hresp] at h
            exact ih _ st1 h
          | err c =>
            simp only [hresp] at h
            by_cases hc : c = ETIME
            · rw [if_pos hc] at h
              exact ih _ st1 h
            · rw [if_neg hc] at h
              exact RunRes.noConfusion h
    | fail e st2 => rw [hpc] at h; exact RunRes.noConfusion h
    | panicked k st2 => rw [hpc] at h; exact RunRes.noConfusion h
    | outOfFuel => rw [hpc] at h; exact RunRes.noConfusion h

theorem drainFuel_inv {E T : Type} (rf : E → Int → Except Int Int)
    (cf : E → Except Int Int → T → Except Int T) (X : Multiset Nat) :
    ∀ (fuel : Nat) (st st1 : RingSt E T), slabWF st.entries →
      keysM st = X + pendingTags st →
      resSt (drainFuel rf cf fuel st) = some st1 →
      slabWF st1.entries ∧ keysM st1 = X + pendingTags st1 := by
  intro fuel
  induction fuel with
  | zero =>
    intro st st1 hwf hinv h
    simp only [drainFuel, resSt] at h
    exact Option.noConfusion h
  | succ fuel ih =>
    intro st st1 hwf hinv h
    simp only [drainFuel] at h
    have hinvS : keysM ({ st with cqLocal := st.cqLocal ++ st.cqKernel,
                                  cqKernel := [] } : RingSt E T) =
        X + pendingTags ({ st with cqLocal := st.cqLocal ++ st.cqKernel,
                                   cqKernel := [] } : RingSt E T) := by
      rw [sync_pending]
      exact hinv
    have hwfS : slabWF ({ st with cqLocal := st.cqLocal ++ st.cqKernel,
                                  cqKernel := [] } : RingSt E T).entries := hwf
    cases hpc : ringProcessCompletions rf cf st with
    | ok u st2 =>
      rw [hpc] at h
      rw [ringPC_eq] at hpc
      have hwf2 := (pcLoop_keys rf cf _ _ _ hwfS (by rw [hpc]; rfl)).1
      have hinv2 := pcLoop_inv rf cf X _ _ _ rfl hinvS (by rw [hpc]; rfl)
      cases hemp : st2.entries.entries.isEmpty with
      | true =>
        simp only [hemp, if_true, resSt] at h
        obtain rfl := Option.some.inj h
        exact ⟨hwf2, hinv2⟩
      | false =>
        simp only [hemp, Bool.false_eq_true, if_false] at h
        cases hor2 : st2.oracle with
        | nil =>
          simp only [kernelEnter, hor2, resSt] at h
          exact Option.noConfusion h
        | cons ev rest =>
          simp only [kernelEnter, hor2] at h
          have hD := applyDels_frame ev.dels { st2 with oracle := rest }
          have hwfD : slabWF (applyDels ev.dels { st2 with oracle := rest }).entries := by
            rw [hD.2.2.2.1]
            exact hwf2
          have hinvD : keysM (applyDels ev.dels { st2 with oracle := rest }) =
              X + pendingTags (applyDels ev.dels { st2 with oracle := rest }) := by
            rw [keysM_congr (hD.2.2.2.1.trans rfl), applyDels_pending]
            exact hinv2
          cases hresp : ev.resp with
          | ok n =>
            simp only [hresp] at h
            refine ih _ st1 ?_ ?_ h
            · rw [(flushSq_frame _).2.2.2.2.1]
              exact hwfD
            · rw [keysM_congr (flushSq_frame _).2.2.2.2.1, flushSq_pending]
              exact hinvD
          | err c =>
            simp only [hresp] at h
            by_cases hc : c = ETIME
            · rw [if_pos hc] at h
              exact ih _ st1 hwfD hinvD h
            · rw [if_neg hc] at h
              simp only [resSt] at h
              obtain rfl := Option.some.inj h
              exact ⟨hwfD, hinvD⟩
    | fail e st2 =>
      rw [hpc] at h
      simp only [resSt] at h
      obtain rfl := Option.some.inj h
      rw [ringPC_eq] at hpc
      exact ⟨(pcLoop_keys rf cf _ _ _ hwfS (by rw [hpc]; rfl)).1,
        pcLoop_inv rf cf X _ _ _ rfl hinvS (by rw [hpc]; rfl)⟩
    | panicked k st2 =>
      rw [hpc] at h
      simp only [resSt] at h
      obtain rfl := Option.some.inj h
      rw [ringPC_eq] at hpc
      exact ⟨(pcLoop_keys rf cf _ _ _ hwfS (by rw [hpc]; rfl)).1,
        pcLoop_inv rf cf X _ _ _ rfl hinvS (by rw [hpc]; rfl)⟩
    | outOfFuel =>
      rw [hpc] at h
      simp only [resSt] at h
      exact Option.noConfusion h

theorem submitAndWait_state {E T : Type} (want : Nat) (t : Option Nat)
    (st st1 : RingSt E T) (a : Option Nat) :
    (submitAndWait want t st = .ok a st1 ∨ (∃ e, submitAndWait want t st = .fail e st1)) →
    st1.entries = st.entries ∧ pendingTags st1 = pendingTags st := by
  intro h
  cases hor : st.oracle with
  | nil =>
    rcases h with h | ⟨e, h⟩ <;>
      · cases t <;> simp only [submitAndWait, kernelEnter, hor] at h <;> exact RunRes.noConfusion h
  | cons ev rest =>
    have hD := applyDels_frame ev.dels { st with oracle := rest }
    have hDe : (applyDels ev.dels { st with oracle := rest }).entries = st.entries :=
      hD.2.2.2.1.trans rfl
    have hDp : pendingTags (applyDels ev.dels { st with oracle := rest }) = pendingTags st :=
      (applyDels_pending _ _).trans rfl
    have hFe : (flushSq (applyDels ev.dels { st with oracle := rest })).entries = st.entries :=
      ((flushSq_frame _).2.2.2.2.1).trans hDe
    have hFp : pendingTags (flushSq (applyDels ev.dels { st with oracle := rest })) =
        pendingTags st := (flushSq_pending _).trans hDp
    rcases h with h | ⟨e, h⟩ <;> cases t <;>
        simp only [submitAndWait, kernelEnter, hor] at h <;>
        cases hresp : ev.resp <;> simp only [hresp] at h
    · obtain ⟨-, rfl⟩ := RunRes.ok.inj h
      exact ⟨hFe, hFp⟩
    · exact RunRes.noConfusion h
    · obtain ⟨-, rfl⟩ := RunRes.ok.inj h
      exact ⟨hFe, hFp⟩
    · rename_i c
      by_cases hc : c = ETIME
      · rw [if_pos hc] at h
        obtain ⟨-, rfl⟩ := RunRes.ok.inj h
        exact ⟨hDe, hDp⟩
      · rw [if_neg hc] at h
        exact RunRes.noConfusion h
    · exact RunRes.noConfusion h
    · obtain ⟨-, rfl⟩ := RunRes.fail.inj h
      exact ⟨hDe, hDp⟩
    · exact RunRes.noConfusion h
    · rename_i c
      by_cases hc : c = ETIME
      · rw [if_pos hc] at h
        exact RunRes.noConfusion h
      · rw [if_neg hc] at h
        obtain ⟨-, rfl⟩ := RunRes.fail.inj h
        exact ⟨hDe, hDp⟩

theorem runStep_inv {E T : Type} (rf : E → Int → Except Int Int)
    (cf : E → Except Int Int → T → Except Int T) (fuel : Nat) (s : Step E)
    (st st1 : RingSt E T) (hwf : slabWF st.entries) (hinv : keysM st = pendingTags st)
    (h : runStep rf cf fuel s st = .ok () st1) :
    slabWF st1.entries ∧ keysM st1 = pendingTags st1 := by
  have hinv0 : keysM st = (0 : Multiset Nat) + pendingTags st := by
    rw [zero_add]
    exact hinv
  cases s with
  | push op =>
    exact ringPush_ok_inv rf cf fuel op st st1 hwf hinv h
  | submit =>
    simp only [runStep] at h
    obtain ⟨hwf1, hinv1⟩ :=
      submitFuel_inv rf cf 0 fuel st st1 hwf hinv0 (by rw [h]; rfl)
    rw [zero_add] at hinv1
    exact ⟨hwf1, hinv1⟩
  | processCompletions =>
    simp only [runStep] at h
    have hwfS : slabWF ({ st with cqLocal := st.cqLocal ++ st.cqKernel,
                                  cqKernel := [] } : RingSt E T).entries := hwf
    have hinvS : keysM ({ st with cqLocal := st.cqLocal ++ st.cqKernel,
                                  cqKernel := [] } : RingSt E T) =
        (0 : Multiset Nat) + pendingTags ({ st with cqLocal := st.cqLocal ++ st.cqKernel,
                                                    cqKernel := [] } : RingSt E T) := by
      rw [sync_pending]
      exact hinv0
    rw [ringPC_eq] at h
    have hwf1 := (pcLoop_keys rf cf _ _ _ hwfS (by rw [h]; rfl)).1
    have hinv1 := pcLoop_inv rf cf 0 _ _ _ rfl hinvS (by rw [h]; rfl)
    rw [zero_add] at hinv1
    exact ⟨hwf1, hinv1⟩
  | drain =>
    simp only [runStep] at h
    obtain ⟨hwf1, hinv1⟩ :=
      drainFuel_inv rf cf 0 fuel st st1 hwf hinv0 (by rw [h]; rfl)
    rw [zero_add] at hinv1
    exact ⟨hwf1, hinv1⟩
  | wait w t =>
    simp only [runStep] at h
    cases hsw : submitAndWait w t st with
    | ok a st2 =>
      rw [hsw] at h
      obtain ⟨-, rfl⟩ := RunRes.ok.inj h
      obtain ⟨hent, hpend⟩ := submitAndWait_state w t st st2 a (Or.inl hsw)
      refine ⟨by rw [hent]; exact hwf, ?_⟩
      rw [keysM_congr hent, hpend]
      exact hinv
    | fail e st2 => rw [hsw] at h; exact RunRes.noConfusion h
    | panicked k st2 => rw [hsw] at h; exact RunRes.noConfusion h
    | outOfFuel => rw [hsw] at h; exact RunRes.noConfusion h

theorem runSteps_inv {E T : Type} (rf : E → Int → Except Int Int)
    (cf : E → Except Int Int → T → Except Int T) (fuel : Nat) :
    ∀ (steps : List (Step E)) (st st1 : RingSt E T), slabWF st.entries →
      keysM st = pendingTags st →
      runSteps rf cf fuel steps st = .ok () st1 →
      slabWF st1.entries ∧ keysM st1 = pendingTags st1 := by
  intro steps
  induction steps with
  | nil =>
    intro st st1 hwf hinv h
    simp only [runSteps] at h
    obtain ⟨-, rfl⟩ := RunRes.ok.inj h
    exact ⟨hwf, hinv⟩
  | cons s rest ih =>
    intro st st1 hwf hinv h
    simp only [runSteps] at h
    cases hs : runStep rf cf fuel s st with
    | ok u st2 =>
      rw [hs] at h
      obtain ⟨hwf2, hinv2⟩ := runStep_inv rf cf fuel s st st2 hwf hinv (by
        cases u
        exact hs)
      exact ih st2 st1 hwf2 hinv2 h
    | fail e st2 => rw [hs] at h; exact RunRes.noConfusion h
    | panicked k st2 => rw [hs] at h; exact RunRes.noConfusion h
    | outOfFuel => rw [hs] at h; exact RunRes.noConfusion h

theorem forall₂_and_left {α β : Type} {R : α → β → Prop} {P : α → Prop} :
    ∀ {l1 : List α} {l2 : List β}, List.Forall₂ R l1 l2 → (∀ a ∈ l1, P a) →
      List.Forall₂ (fun a b => R a b ∧ P a) l1 l2 := by
  intro l1 l2 h
  induction h with
  | nil => intro; exact List.Forall₂.nil
  | cons hr hrest ih =>
    intro hp
    refine List.Forall₂.cons ⟨hr, hp _ (List.mem_cons_self _ _)⟩ ?_
    exact ih fun a ha => hp a (List.mem_cons_of_mem _ ha)

/-- C1: whenever `Ring::process_completions` returns `Ok`, every completion
entry visible after the initial sync (the synced local view plus the
kernel-published entries pulled in by the sync) has been popped — the local
view and the kernel queue end empty — and for the i-th popped entry exactly
one `complete` invocation was recorded, whose key is that entry's
correlation tag, whose argument is the raw result translated by the
operation's `result` mapping, and which ran with the operation already
removed from the in-flight table. -/
theorem c1_process_completions_drains_all {E T : Type} (rf : E → Int → Except Int Int)
    (cf : E → Except Int Int → T → Except Int T) (st st1 : RingSt E T)
    (hwf : slabWF st.entries) (h : ringProcessCompletions rf cf st = .ok () st1) :
    st1.cqLocal = [] ∧ st1.cqKernel = [] ∧
      ∃ l, st1.trace = st.trace ++ l ∧
        List.Forall₂ (fun (ev : CompEvent E) (cqe : Cqe) =>
          (ev.key = cqe.userData ∧ ev.res = rf ev.op cqe.res ∧ ev.cOut = .ok ()) ∧
            ev.key ∉ slabKeys ev.entriesAtCall) l (st.cqLocal ++ st.cqKernel) := by
  rw [ringPC_eq] at h
  obtain ⟨hcq1, l1, hl1, hrel⟩ := pcLoop_ok rf cf _ _ _ (by rfl) h
  have hwfS : slabWF ({ st with cqLocal := st.cqLocal ++ st.cqKernel,
                                cqKernel := [] } : RingSt E T).entries := hwf
  obtain ⟨-, l2, hl2, hprop, -⟩ := pcLoop_keys rf cf _ _ _ hwfS (by rw [h]; rfl)
  obtain ⟨-, -, -, hcqk, -⟩ := pcLoop_frame rf cf _ _ _ (by rw [h]; rfl)
  have hl12 : l1 = l2 := by
    have := hl1.symm.trans hl2
    exact List.append_cancel_left this
  subst hl12
  refine ⟨hcq1, by rw [hcqk], l1, hl1, ?_⟩
  exact forall₂_and_left hrel fun ev hev => (hprop ev hev).1

/-- Witness for C1 at a concrete two-completion state. -/
theorem c1_witness :
    slabWF stC1.entries ∧
      (stC1Post.cqLocal = [] ∧ stC1Post.cqKernel = [] ∧
        ∃ l, stC1Post.trace = stC1.trace ++ l ∧
          List.Forall₂ (fun (ev : CompEvent Unit) (cqe : Cqe) =>
            (ev.key = cqe.userData ∧ ev.res = rfD ev.op cqe.res ∧ ev.cOut = .ok ()) ∧
              ev.key ∉ slabKeys ev.entriesAtCall) l (stC1.cqLocal ++ stC1.cqKernel)) :=
  ⟨by decide, c1_process_completions_drains_all rfD cfOk stC1 stC1Post (by decide) (by decide)⟩

/-- C6: if a `complete` callback fails with error `e` during a
completion-processing pass, the pass returns `Err(e)` at once: the local
view splits as `pre ++ cqe :: post` with exactly the entries of `pre` and
`cqe` processed (all of `pre` with successful callbacks, `cqe` with the
failing one), and the entries of `post` untouched. -/
theorem c6_complete_error_aborts_pass {E T : Type} (rf : E → Int → Except Int Int)
    (cf : E → Except Int Int → T → Except Int T) (st st1 : RingSt E T) (e : Int)
    (h : ringCtxProcessCompletions rf cf st = .fail e st1) :
    ∃ pre cqe post l ev,
      st.cqLocal = pre ++ cqe :: post ∧ st1.cqLocal = post ∧
      st1.trace = st.trace ++ l ++ [ev] ∧ l.length = pre.length ∧
      (∀ x ∈ l, (x : CompEvent E).cOut = .ok ()) ∧
      (ev : CompEvent E).key = cqe.userData ∧ ev.cOut = .error e :=
  pcLoop_fail rf cf st.cqLocal st e st1 rfl h

/-- Witness for C6 at a concrete state whose first callback fails. -/
theorem c6_witness :
    ∃ pre cqe post l ev,
      stC6.cqLocal = pre ++ cqe :: post ∧ stC6Bad.cqLocal = post ∧
      stC6Bad.trace = stC6.trace ++ l ++ [ev] ∧ l.length = pre.length ∧
      (∀ x ∈ l, (x : CompEvent Unit).cOut = .ok ()) ∧
      (ev : CompEvent Unit).key = cqe.userData ∧ ev.cOut = .error 99 :=
  c6_complete_error_aborts_pass rfD cfErr99 stC6 stC6Bad 99 (by decide)

/-- C7: the default `RingOp::result` translation maps a negative raw kernel
result `res` to the structured error carrying the decoded OS error code
`-res`, and a non-negative one to the success payload `Ok(res)`. -/
theorem c7_default_result_translation (res : Int) :
    (res < 0 → defaultResult res = .error (-res)) ∧
      (0 ≤ res → defaultResult res = .ok res) := by
  constructor
  · intro h
    unfold defaultResult
    rw [if_pos h]
  · intro h
    unfold defaultResult
    rw [if_neg (not_lt.mpr h)]

/-- Witness for C7 at raw results -5 and 3. -/
theorem c7_witness : defaultResult (-5) = .error 5 ∧ defaultResult 3 = .ok 3 :=
  ⟨(c7_default_result_translation (-5)).1 (by decide),
    (c7_default_result_translation 3).2 (by decide)⟩

/-- C9: under the precondition that the correlation tags of the visible
completion entries are (with multiplicity) among the keys of the in-flight
table, the table removal in `process_completions` never reaches its failure
case; and a completion whose tag is missing is not a recoverable `Err`
return but the unrecoverable `panicked` outcome (the slab crate's panic). -/
theorem c9_missing_tag_is_panic {E T : Type} (rf : E → Int → Except Int Int)
    (cf : E → Except Int Int → T → Except Int T) (st : RingSt E T) :
    (((st.cqLocal.map Cqe.userData : List Nat) : Multiset Nat) ≤
        ((slabKeys st.entries : List Nat) : Multiset Nat) →
      ∀ (k : Nat) (st1 : RingSt E T), ringCtxProcessCompletions rf cf st ≠ .panicked k st1) ∧
    (∀ cqe rest, st.cqLocal = cqe :: rest → cqe.userData ∉ slabKeys st.entries →
      ringCtxProcessCompletions rf cf st = .panicked cqe.userData { st with cqLocal := rest }) := by
  constructor
  · intro hle k st1
    exact pcLoop_no_panic rf cf st.cqLocal st hle k st1
  · intro cqe rest hcq hmem
    unfold ringCtxProcessCompletions
    rw [hcq]
    exact pcLoop_panic_head rf cf cqe rest st hmem

/-- Witness for C9: no panic when the tag is present, panic when absent. -/
theorem c9_witness :
    (ringCtxProcessCompletions rfD cfOk stC9 ≠ .panicked 0 stC9) ∧
      ringCtxProcessCompletions rfD cfOk stC9Bad =
        .panicked 3 { stC9Bad with cqLocal := [] } :=
  ⟨(c9_missing_tag_is_panic rfD cfOk stC9).1 (by decide) 0 stC9,
    (c9_missing_tag_is_panic rfD cfOk stC9Bad).2 ⟨3, 5⟩ [] (by decide) (by decide)⟩

/-- C10: in any completion-processing pass (returning `Ok`, `Err`, or
aborted by a panic), every recorded `complete` invocation ran with its
operation already removed by value from the in-flight table — the table
snapshot visible to the callback does not contain the operation's key — and
no key receives a second callback within the pass; the well-formedness of
the table is preserved, so this holds even for the invocation whose error
aborts the pass. -/
theorem c10_remove_before_complete {E T : Type} (rf : E → Int → Except Int Int)
    (cf : E → Except Int Int → T → Except Int T) (st st1 : RingSt E T)
    (hwf : slabWF st.entries)
    (h : resSt (ringCtxProcessCompletions rf cf st) = some st1) :
    slabWF st1.entries ∧
      ∃ l, st1.trace = st.trace ++ l ∧
        (∀ ev ∈ l, (ev : CompEvent E).key ∉ slabKeys ev.entriesAtCall ∧
          ev.key ∈ slabKeys st.entries) ∧
        (l.map CompEvent.key).Nodup :=
  pcLoop_keys rf cf st.cqLocal st st1 hwf h

/-- Witness for C10 at a concrete one-completion state. -/
theorem c10_witness :
    slabWF stC1.entries ∧
      (slabWF stC10Post.entries ∧
        ∃ l, stC10Post.trace = stC1.trace ++ l ∧
          (∀ ev ∈ l, (ev : CompEvent Unit).key ∉ slabKeys ev.entriesAtCall ∧
            ev.key ∈ slabKeys stC1.entries) ∧
          (l.map CompEvent.key).Nodup) :=
  ⟨by decide, c10_remove_before_complete rfD cfOk stC1 stC10Post (by decide) (by decide)⟩

/-- C2 (counterexample to the claim as stated): starting from a fresh ring
with a valid table invariant, the public operation sequence
`push (); push ()` against a kernel whose submit syscall reports a fatal
error (12 = ENOMEM, unrelated to queue capacity) ends between public
operations in a state where the set of in-flight table keys is NOT the set
of accepted-but-unprocessed descriptors: key 1 is in the table although its
descriptor was never accepted into the submission queue. -/
theorem c2_counterexample :
    tableInv stC2Init ∧
      runSteps rfD cfOk 5 [.push (), .push ()] stC2Init = .fail 12 stC2Bad ∧
      ¬ tableInv stC2Bad := by
  refine ⟨by decide, by decide, by decide⟩

/-- C2 (amended): at every point between public engine operations reached
by a run in which every operation returned `Ok`, the multiset of keys
present in the in-flight slot table equals exactly the multiset of
correlation tags of descriptors accepted into the submission path and not
yet completion-processed — so each such key is present exactly once, from
acceptance until its completion is processed, and is never delivered
twice. (The unamended claim fails only when an operation returns a fatal
kernel error mid-push, which can strand its freshly inserted key.) -/
theorem c2_table_invariant_error_free {E T : Type} (rf : E → Int → Except Int Int)
    (cf : E → Except Int Int → T → Except Int T) (fuel : Nat) (steps : List (Step E))
    (st st1 : RingSt E T) (hwf : slabWF st.entries) (hinv : tableInv st)
    (h : runSteps rf cf fuel steps st = .ok () st1) : tableInv st1 :=
  (runSteps_inv rf cf fuel steps st st1 hwf hinv h).2

/-- Witness for the amended C2 on a successful one-push run. -/
theorem c2_witness :
    (slabWF stC2W.entries ∧ tableInv stC2W ∧
        runSteps rfD cfOk 5 [.push ()] stC2W = .ok () stC2WPost) ∧
      tableInv stC2WPost :=
  ⟨⟨by decide, by decide, by decide⟩,
    c2_table_invariant_error_free rfD cfOk 5 [.push ()] stC2W stC2WPost
      (by decide) (by decide) (by decide)⟩

/-- C3 (counterexample to the claim as stated): `Ring::push` can return an
error that the kernel never reported: with the submission queue full and
the kernel answering only `EBUSY` (queue saturation), the internal
backpressure handling processes a completion whose `complete` callback
fails with error 99, and push returns that callback error. -/
theorem c3_counterexample :
    ringPush rfD cfErr99 5 () stC3 = .fail 99 stC3Bad ∧
      stC3.oracle = [⟨[], .err EBUSY⟩] := by
  refine ⟨by decide, rfl⟩

/-- C3 (amended): when the local submission queue is full, `Ring::push`
flushes and retries until the descriptor is accepted — on success the
operation's key is on the submission queue, and queue capacity itself
(`EBUSY` backpressure, full local queue, `EINTR`) never surfaces as an
error. Push returns `Err(e)` only when the kernel reported the
non-capacity, non-interrupt error `e`, or when a `complete` callback
invoked while draining completions to relieve backpressure returned `e`. -/
theorem c3_push_error_sources {E T : Type} (rf : E → Int → Except Int Int)
    (cf : E → Except Int Int → T → Except Int T) (fuel : Nat) (op : E)
    (st : RingSt E T) :
    (∀ st1, ringPush rf cf fuel op st = .ok () st1 →
        (slabInsert st.entries op).1 ∈ st1.sq) ∧
      (∀ e st1, ringPush rf cf fuel op st = .fail e st1 →
        (∃ ds, (⟨ds, .err e⟩ : KEv) ∈ st.oracle ∧ e ≠ EBUSY ∧ e ≠ EINTR) ∨
          (∃ l ev, st1.trace = st.trace ++ l ++ [ev] ∧
            (ev : CompEvent E).cOut = .error e)) := by
  constructor
  · intro st1 h
    unfold ringPush at h
    dsimp only at h
    exact pushLoop_ok_mem rf cf _ fuel _ st1 h
  · intro e st1 h
    unfold ringPush at h
    dsimp only at h
    exact pushLoop_fail rf cf (slabInsert st.entries op).1 fuel
      { st with entries := (slabInsert st.entries op).2 } st1 e h

/-- Witness for the amended C3: a successful push puts the key on the
queue; a fatal kernel error (7) during a full-queue push surfaces as one
of the two admitted error sources. -/
theorem c3_witness :
    ((slabInsert stC2W.entries ()).1 ∈ stC2WPost.sq) ∧
      ((∃ ds, (⟨ds, .err 7⟩ : KEv) ∈ stC3F.oracle ∧ (7 : Int) ≠ EBUSY ∧ (7 : Int) ≠ EINTR) ∨
        (∃ l ev, stC3FBad.trace = stC3F.trace ++ l ++ [ev] ∧
          (ev : CompEvent Unit).cOut = .error 7)) :=
  ⟨(c3_push_error_sources rfD cfOk 5 () stC2W).1 stC2WPost (by decide),
    (c3_push_error_sources rfD cfOk 5 () stC3F).2 7 stC3FBad (by decide)⟩

/-- C4: `Ring::submit` handles the kernel submit syscall's outcome exactly
as claimed: on `EBUSY` (completion-queue saturation) it processes
completions and retries the flush; on `EINTR` it retries immediately with
no other engine action; on any other error code `c` it returns `Err(c)` to
the caller; and whenever it returns `Err`, the locally queued submissions
are untouched (`sq` unchanged), so the caller can retry. -/
theorem c4_submit_error_handling {E T : Type} (rf : E → Int → Except Int Int)
    (cf : E → Except Int Int → T → Except Int T) :
    (∀ (fuel : Nat) (st st2 : RingSt E T) ds rest,
        st.oracle = ⟨ds, .err EBUSY⟩ :: rest →
        ringProcessCompletions rf cf (applyDels ds { st with oracle := rest }) = .ok () st2 →
        submitFuel rf cf (fuel + 1) st = submitFuel rf cf fuel st2) ∧
      (∀ (fuel : Nat) (st : RingSt E T) ds rest,
        st.oracle = ⟨ds, .err EINTR⟩ :: rest →
        submitFuel rf cf (fuel + 1) st =
          submitFuel rf cf fuel (applyDels ds { st with oracle := rest })) ∧
      (∀ (fuel : Nat) (st : RingSt E T) ds rest c,
        st.oracle = ⟨ds, .err c⟩ :: rest → c ≠ EBUSY → c ≠ EINTR →
        submitFuel rf cf (fuel + 1) st = .fail c (applyDels ds { st with oracle := rest })) ∧
      (∀ (fuel : Nat) (st st1 : RingSt E T) (e : Int),
        submitFuel rf cf fuel st = .fail e st1 → st1.sq = st.sq) := by
  refine ⟨?_, ?_, ?_, ?_⟩
  · intro fuel st st2 ds rest horacle hpc
    obtain ⟨cap, sq, sub, cqk, cql, ent, cx, orc, tr⟩ := st
    simp only at horacle
    subst horacle
    have hstep : submitFuel rf cf (fuel + 1)
        (⟨cap, sq, sub, cqk, cql, ent, cx, (⟨ds, .err EBUSY⟩ : KEv) :: rest, tr⟩ : RingSt E T) =
        match ringProcessCompletions rf cf (applyDels ds
          (⟨cap, sq, sub, cqk, cql, ent, cx, rest, tr⟩ : RingSt E T)) with
        | .ok _ s => submitFuel rf cf fuel s
        | r => r := rfl
    rw [hstep, hpc]
  · intro fuel st ds rest horacle
    obtain ⟨cap, sq, sub, cqk, cql, ent, cx, orc, tr⟩ := st
    simp only at horacle
    subst horacle
    rfl
  · intro fuel st ds rest c horacle hc1 hc2
    obtain ⟨cap, sq, sub, cqk, cql, ent, cx, orc, tr⟩ := st
    simp only at horacle
    subst horacle
    simp only [submitFuel, kernelEnter]
    rw [if_neg hc1, if_neg hc2]
  · intro fuel st st1 e h
    exact (submitFuel_fail rf cf fuel st st1 e h).1

/-- Witness for C4: the `EINTR` retry equation and the fatal-error return
at concrete states, plus queue preservation on the fatal error. -/
theorem c4_witness :
    (submitFuel rfD cfOk 1 stC4I = submitFuel rfD cfOk 0 stC4FBad) ∧
      (submitFuel rfD cfOk 1 stC4F = .fail 5 stC4FBad) ∧
      stC4FBad.sq = stC4F.sq := by
  refine ⟨?_, ?_, ?_⟩
  · have h := (c4_submit_error_handling rfD cfOk).2.1 0 stC4I [] [] rfl
    exact h.trans (by decide)
  · have h := (c4_submit_error_handling rfD cfOk).2.2.1 0 stC4F [] [] 5 rfl
      (by decide) (by decide)
    exact h.trans (by decide)
  · exact (c4_submit_error_handling rfD cfOk).2.2.2 1 stC4F stC4FBad 5 (by decide)

/-- C5: `Ring::drain` (a) ends with an empty in-flight table whenever it
returns `Ok`; (b) when the table is still non-empty after a processing
pass and the bounded wait reports `ETIME`, the timeout is treated as a
normal retry — drain loops again rather than returning an error; and
(c) called with zero in-flight operations (and, per the table invariant,
therefore no pending completions), it returns `Ok` immediately after the
single completion-processing pass, consuming no kernel-oracle event. -/
theorem c5_drain_behavior {E T : Type} (rf : E → Int → Except Int Int)
    (cf : E → Except Int Int → T → Except Int T) :
    (∀ (fuel : Nat) (st st1 : RingSt E T),
        drainFuel rf cf fuel st = .ok () st1 → st1.entries.entries = []) ∧
      (∀ (fuel : Nat) (st st2 : RingSt E T) ds rest,
        ringProcessCompletions rf cf st = .ok () st2 →
        st2.entries.entries ≠ [] → st2.oracle = ⟨ds, .err ETIME⟩ :: rest →
        drainFuel rf cf (fuel + 1) st =
          drainFuel rf cf fuel (applyDels ds { st2 with oracle := rest })) ∧
      (∀ (fuel : Nat) (st : RingSt E T), st.entries.entries = [] →
        st.cqKernel = [] → st.cqLocal = [] →
        drainFuel rf cf (fuel + 1) st = .ok () st) := by
  refine ⟨?_, ?_, ?_⟩
  · intro fuel st st1 h
    exact drainFuel_ok_empty rf cf fuel st st1 h
  · intro fuel st st2 ds rest hpc hne horacle
    obtain ⟨cap, sq, sub, cqk, cql, ent, cx, orc, tr⟩ := st2
    simp only at horacle hne
    subst horacle
    simp only [drainFuel, hpc]
    rw [if_neg (by simpa using hne)]
    rfl
  · intro fuel st hent hcqk hcql
    obtain ⟨cap, sq, sub, cqk, cql, ent, cx, orc, tr⟩ := st
    obtain ⟨entl, fl, nx⟩ := ent
    simp only at hent hcqk hcql
    subst hcqk
    subst hcql
    subst hent
    rfl

/-- Witness for C5: a drain that completes one in-flight operation ends
empty; an `ETIME` wait retries; a drain on an idle ring returns at once. -/
theorem c5_witness :
    stC5Post.entries.entries = [] ∧
      (drainFuel rfD cfOk 1 stC5T = drainFuel rfD cfOk 0 stC5T) ∧
      drainFuel rfD cfOk 1 (initRing 4 () [] : RingSt Unit Unit) =
        .ok () (initRing 4 () []) := by
  refine ⟨?_, ?_, ?_⟩
  · exact (c5_drain_behavior rfD cfOk).1 3 stC5 stC5Post (by decide)
  · have h := (c5_drain_behavior rfD cfOk).2.1 0 stC5T stC5T [] [] (by decide)
      (by decide) (by decide)
    exact h.trans (by decide)
  · exact (c5_drain_behavior rfD cfOk).2.2 0 (initRing 4 () []) (by decide) rfl rfl

/-- C8: the blocking wait with a timeout (`Ring::submit_and_wait` with
`Some(timeout)`) reports a kernel `ETIME` as `Ok(None)` — a timeout,
distinct from an error, since a `fail` outcome never carries `ETIME` —
reports kernel success with `n` completions as `Ok(Some(n))`, and returns
any other kernel error code to the caller as `Err`. -/
theorem c8_wait_timeout_semantics {E T : Type} (want t : Nat) (st : RingSt E T) :
    (∀ ds rest n, st.oracle = ⟨ds, .ok n⟩ :: rest →
        submitAndWait want (some t) st =
          .ok (some n) (flushSq (applyDels ds { st with oracle := rest }))) ∧
      (∀ ds rest, st.oracle = ⟨ds, .err ETIME⟩ :: rest →
        submitAndWait want (some t) st = .ok none (applyDels ds { st with oracle := rest })) ∧
      (∀ ds rest c, st.oracle = ⟨ds, .err c⟩ :: rest → c ≠ ETIME →
        submitAndWait want (some t) st = .fail c (applyDels ds { st with oracle := rest })) ∧
      (∀ (e : Int) (st1 : RingSt E T), submitAndWait want (some t) st = .fail e st1 →
        e ≠ ETIME) := by
  refine ⟨?_, ?_, ?_, ?_⟩
  · intro ds rest n horacle
    obtain ⟨cap, sq, sub, cqk, cql, ent, cx, orc, tr⟩ := st
    simp only at horacle
    subst horacle
    rfl
  · intro ds rest horacle
    obtain ⟨cap, sq, sub, cqk, cql, ent, cx, orc, tr⟩ := st
    simp only at horacle
    subst horacle
    rfl
  · intro ds rest c horacle hc
    obtain ⟨cap, sq, sub, cqk, cql, ent, cx, orc, tr⟩ := st
    simp only at horacle
    subst horacle
    simp only [submitAndWait, kernelEnter]
    rw [if_neg hc]
  · intro e st1 h
    cases horacle : st.oracle with
    | nil =>
      simp only [submitAndWait, kernelEnter, horacle] at h
      exact RunRes.noConfusion h
    | cons ev rest =>
      simp only [submitAndWait, kernelEnter, horacle] at h
      cases hresp : ev.resp with
      | ok n =>
        simp only [hresp] at h
        exact RunRes.noConfusion h
      | err c =>
        simp only [hresp] at h
        by_cases hc : c = ETIME
        · rw [if_pos hc] at h
          exact RunRes.noConfusion h
        · rw [if_neg hc] at h
          obtain ⟨rfl, -⟩ := RunRes.fail.inj h
          exact hc

/-- Witness for C8: timeout, success, and error outcomes at concrete
oracles. -/
theorem c8_witness :
    (submitAndWait 1 (some 10) (initRing 1 () [⟨[], .err ETIME⟩] : RingSt Unit Unit) =
        .ok none (initRing 1 () [])) ∧
      (submitAndWait 1 (some 10) (initRing 1 () [⟨[], .ok 3⟩] : RingSt Unit Unit) =
        .ok (some 3) (initRing 1 () [])) ∧
      (submitAndWait 1 (some 10) (initRing 1 () [⟨[], .err 9⟩] : RingSt Unit Unit) =
        .fail 9 (initRing 1 () [])) := by
  refine ⟨?_, ?_, ?_⟩
  · have h := (c8_wait_timeout_semantics 1 10
      (initRing 1 () [⟨[], .err ETIME⟩] : RingSt Unit Unit)).2.1 [] [] rfl
    exact h.trans (by decide)
  · have h := (c8_wait_timeout_semantics 1 10
      (initRing 1 () [⟨[], .ok 3⟩] : RingSt Unit Unit)).1 [] [] 3 rfl
    exact h.trans (by decide)
  · have h := (c8_wait_timeout_semantics 1 10
      (initRing 1 () [⟨[], .err 9⟩] : RingSt Unit Unit)).2.2.1 [] [] 9 rfl (by decide)
    exact h.trans (by decide)

end RingModel
